import Mathlib

/-!
# Token manager: the server-side token state machine

A shallow embedding of `src/token_manage/server.go`.

* `uint64` values are natural numbers; the request fields and the loop counters are
  below `2 ^ 64`, and the counter increment `i++` is taken modulo `2 ^ 64`.
* The map `tokens map[string]*Token` is a function from identifiers to optional
  token records. Every pointer stored in the map is created by `CreateToken` and is
  reachable only through its own key, so a mutation through the pointer is an update
  of the entry under that key.
* A handler returns its `(response, error)` pair as an `Except` value together with the
  table after the call. The two scanning handlers take the number of loop iterations
  they may run as `fuel` and return `none` when the loop has not finished within it.
* The mutex is not part of the model: handlers are whole steps.
* `DumpToken` only reads the table and prints; it is left out.
* `crypto/sha256`, `encoding/binary` and the `%d` verb of `fmt` are library code that
  `Hash` calls; they are written out below so that `Hash` can be evaluated.
-/

namespace TokenManager

/-! ## Library code used by `Hash` -/

/-- The constant `math.MaxUint64` of the Go library. -/
def MaxUint64 : Nat := 2 ^ 64 - 1

/-- Round constants of SHA-256, in the eight rows of FIPS 180-4, section 4.2.2. -/
def sha256K : List Nat :=
  List.flatten
    [[0x428a2f98, 0x71374491, 0xb5c0fbcf, 0xe9b5dba5, 0x3956c25b, 0x59f111f1, 0x923f82a4, 0xab1c5ed5],
     [0xd807aa98, 0x12835b01, 0x243185be, 0x550c7dc3, 0x72be5d74, 0x80deb1fe, 0x9bdc06a7, 0xc19bf174],
     [0xe49b69c1, 0xefbe4786, 0x0fc19dc6, 0x240ca1cc, 0x2de92c6f, 0x4a7484aa, 0x5cb0a9dc, 0x76f988da],
     [0x983e5152, 0xa831c66d, 0xb00327c8, 0xbf597fc7, 0xc6e00bf3, 0xd5a79147, 0x06ca6351, 0x14292967],
     [0x27b70a85, 0x2e1b2138, 0x4d2c6dfc, 0x53380d13, 0x650a7354, 0x766a0abb, 0x81c2c92e, 0x92722c85],
     [0xa2bfe8a1, 0xa81a664b, 0xc24b8b70, 0xc76c51a3, 0xd192e819, 0xd6990624, 0xf40e3585, 0x106aa070],
     [0x19a4c116, 0x1e376c08, 0x2748774c, 0x34b0bcb5, 0x391c0cb3, 0x4ed8aa4a, 0x5b9cca4f, 0x682e6ff3],
     [0x748f82ee, 0x78a5636f, 0x84c87814, 0x8cc70208, 0x90befffa, 0xa4506ceb, 0xbef9a3f7, 0xc67178f2]]

/-- Eight 32-bit working words of the SHA-256 state. -/
structure Sha256State where
  a : Nat
  b : Nat
  c : Nat
  d : Nat
  e : Nat
  f : Nat
  g : Nat
  h : Nat
deriving DecidableEq

/-- Initial hash value of SHA-256 (FIPS 180-4, section 5.3.3). -/
def sha256Init : Sha256State :=
  ⟨0x6a09e667, 0xbb67ae85, 0x3c6ef372, 0xa54ff53a, 0x510e527f, 0x9b05688c, 0x1f83d9ab, 0x5be0cd19⟩

/-- Addition of 32-bit words. -/
def add32 (x y : Nat) : Nat := (x + y) % 2 ^ 32

/-- Rotate a 32-bit word right by `n` bits. -/
def rotr32 (n x : Nat) : Nat := ((x >>> n) ||| (x <<< (32 - n))) % 2 ^ 32

/-- The choice function Ch of SHA-256 on 32-bit words. -/
def sha256Ch (x y z : Nat) : Nat := (x &&& y) ^^^ ((x ^^^ 0xffffffff) &&& z)

/-- The majority function Maj of SHA-256 on 32-bit words. -/
def sha256Maj (x y z : Nat) : Nat := (x &&& y) ^^^ (x &&& z) ^^^ (y &&& z)

/-- The function Sigma0 of the compression rounds. -/
def bigSigma0 (x : Nat) : Nat := rotr32 2 x ^^^ rotr32 13 x ^^^ rotr32 22 x

/-- The function Sigma1 of the compression rounds. -/
def bigSigma1 (x : Nat) : Nat := rotr32 6 x ^^^ rotr32 11 x ^^^ rotr32 25 x

/-- The function sigma0 of the message schedule. -/
def smallSigma0 (x : Nat) : Nat := rotr32 7 x ^^^ rotr32 18 x ^^^ (x >>> 3)

/-- The function sigma1 of the message schedule. -/
def smallSigma1 (x : Nat) : Nat := rotr32 17 x ^^^ rotr32 19 x ^^^ (x >>> 10)

/-- Big-endian bytes of a 64-bit value. -/
def putUint64 (v : Nat) : List Nat :=
  [(v >>> 56) % 256, (v >>> 48) % 256, (v >>> 40) % 256, (v >>> 32) % 256,
   (v >>> 24) % 256, (v >>> 16) % 256, (v >>> 8) % 256, v % 256]

/-- Big-endian bytes of a 32-bit value. -/
def putUint32 (v : Nat) : List Nat :=
  [(v >>> 24) % 256, (v >>> 16) % 256, (v >>> 8) % 256, v % 256]

/-- Message padding: a 0x80 byte, zero bytes up to 56 modulo 64, then the bit length. -/
def sha256Pad (msg : List Nat) : List Nat :=
  msg ++ [0x80] ++ List.replicate ((119 - msg.length % 64) % 64) 0
    ++ putUint64 ((msg.length * 8) % 2 ^ 64)

/-- Big-endian 32-bit words of a byte list (four bytes per word). -/
def sha256Words : List Nat → List Nat
  | b0 :: b1 :: b2 :: b3 :: rest =>
      ((b0 <<< 24) ||| (b1 <<< 16) ||| (b2 <<< 8) ||| b3) :: sha256Words rest
  | _ => []

/-- Extend the message schedule by `n` words; `w` holds the words so far, newest first. -/
def sha256Schedule : Nat → List Nat → List Nat
  | 0, w => w
  | n + 1, w =>
      sha256Schedule n
        (add32 (add32 (add32 (smallSigma1 (w.getD 1 0)) (w.getD 6 0)) (smallSigma0 (w.getD 14 0)))
          (w.getD 15 0) :: w)

/-- One round of the compression function. -/
def sha256Round (s : Sha256State) (kw : Nat × Nat) : Sha256State :=
  let t1 := add32 (add32 (add32 (add32 s.h (bigSigma1 s.e)) (sha256Ch s.e s.f s.g)) kw.1) kw.2
  let t2 := add32 (bigSigma0 s.a) (sha256Maj s.a s.b s.c)
  ⟨add32 t1 t2, s.a, s.b, s.c, add32 s.d t1, s.e, s.f, s.g⟩

/-- Compression of one 64-byte block into the running hash value. -/
def sha256Block (hv : Sha256State) (block : List Nat) : Sha256State :=
  let w := (sha256Schedule 48 (sha256Words block).reverse).reverse
  let s := (sha256K.zip w).foldl sha256Round hv
  ⟨add32 hv.a s.a, add32 hv.b s.b, add32 hv.c s.c, add32 hv.d s.d,
   add32 hv.e s.e, add32 hv.f s.f, add32 hv.g s.g, add32 hv.h s.h⟩

/-- Fold the compression function over `n` consecutive 64-byte blocks. -/
def sha256Blocks : Nat → Sha256State → List Nat → Sha256State
  | 0, hv, _ => hv
  | n + 1, hv, bytes => sha256Blocks n (sha256Block hv (bytes.take 64)) (bytes.drop 64)

/-- Modelled from the spec: the SHA-256 digest of a byte string (spec section 4.1, step 2),
32 bytes. The source takes it from the library `crypto/sha256`, which is not part of the
repository; it is written out here after FIPS 180-4. -/
def sha256Sum (msg : List Nat) : List Nat :=
  let p := sha256Pad msg
  let s := sha256Blocks (p.length / 64) sha256Init p
  putUint32 s.a ++ putUint32 s.b ++ putUint32 s.c ++ putUint32 s.d
    ++ putUint32 s.e ++ putUint32 s.f ++ putUint32 s.g ++ putUint32 s.h

/-- Decoding as in `binary.BigEndian.Uint64`: the first eight bytes, most significant
first, with every shift done in `uint64`. -/
def bigEndianUint64 (b : List Nat) : Nat :=
  b.getD 7 0 ||| ((b.getD 6 0 <<< 8) % 2 ^ 64) ||| ((b.getD 5 0 <<< 16) % 2 ^ 64)
    ||| ((b.getD 4 0 <<< 24) % 2 ^ 64) ||| ((b.getD 3 0 <<< 32) % 2 ^ 64)
    ||| ((b.getD 2 0 <<< 40) % 2 ^ 64) ||| ((b.getD 1 0 <<< 48) % 2 ^ 64)
    ||| ((b.getD 0 0 <<< 56) % 2 ^ 64)

/-- The digit loop of the `%d` verb: while `u ≥ 10` the last digit of `u` is written in
front of the buffer, and the leading digit is written last. A `uint64` has at most
twenty digits, which is the `fuel` that `fmtUint64` passes. -/
def fmtInteger : Nat → Nat → List Nat → List Nat
  | 0, u, buf => (48 + u) :: buf
  | fuel + 1, u, buf =>
      if 10 ≤ u then fmtInteger fuel (u / 10) ((48 + (u - u / 10 * 10)) :: buf)
      else (48 + u) :: buf

/-- The bytes that `%d` prints for a `uint64`. -/
def fmtUint64 (u : Nat) : List Nat := fmtInteger 20 u []

/-- The bytes of a string (its UTF-8 encoding), as `[]byte(s)` gives them. -/
def stringBytes (s : String) : List Nat := s.toUTF8.data.toList.map UInt8.toNat

/-- The bytes of `fmt.Sprintf("%s %d", name, nonce)`. -/
def sprintfNameNonce (name : String) (nonce : Nat) : List Nat :=
  stringBytes name ++ [32] ++ fmtUint64 nonce

/-! ## The server -/

/-- Hash concatenates a message and a nonce and generates a hash value. -/
def Hash (name : String) (nonce : Nat) : Nat :=
  bigEndianUint64 (sha256Sum (sprintfNameNonce name nonce))

/-- The anonymous struct `Domain` of a token. -/
structure Domain where
  Low : Nat
  Mid : Nat
  High : Nat
deriving DecidableEq

/-- The anonymous struct `State` of a token. -/
structure State where
  Partial : Nat
  Final : Nat
deriving DecidableEq

/-- Token struct with the required properties. -/
structure Token where
  ID : String
  Name : String
  Domain : Domain
  State : State
deriving DecidableEq

/-- The server state: the map of tokens. -/
structure TokenManagerServer where
  tokens : String → Option Token

/-- Request message of `CreateToken`. -/
structure CreateTokenRequest where
  Id : String
deriving DecidableEq

/-- Response message of `CreateToken`. -/
structure CreateTokenResponse where
  Success : Bool
deriving DecidableEq

/-- Request message of `DropToken`. -/
structure DropTokenRequest where
  Id : String
deriving DecidableEq

/-- Response message of `DropToken`. -/
structure DropTokenResponse where
  Success : Bool
deriving DecidableEq

/-- Request message of `WriteToken`. -/
structure WriteTokenRequest where
  Id : String
  Name : String
  Low : Nat
  Mid : Nat
  High : Nat
deriving DecidableEq

/-- Response message of `WriteToken`. -/
structure WriteTokenResponse where
  Partial : Nat
deriving DecidableEq

/-- Request message of `ReadToken`. -/
structure ReadTokenRequest where
  Id : String
deriving DecidableEq

/-- Response message of `ReadToken`. -/
structure ReadTokenResponse where
  Final : Nat
deriving DecidableEq

/-- NewTokenManager creates a new instance of the token manager, with an empty map. -/
def NewTokenManager : TokenManagerServer := ⟨fun _ => none⟩

/-- Assignment `tokens[id] = t`. -/
def mapStore (m : String → Option Token) (id : String) (t : Token) : String → Option Token :=
  fun k => if k = id then some t else m k

/-- Removal `delete(tokens, id)`. -/
def mapDelete (m : String → Option Token) (id : String) : String → Option Token :=
  fun k => if k = id then none else m k

/-- The error of `fmt.Errorf("token with id %s already exists", id)`. -/
def errAlreadyExists (id : String) : String := "token with id " ++ id ++ " already exists"

/-- The error of `fmt.Errorf("token with id %s does not exist", id)`. -/
def errDoesNotExist (id : String) : String := "token with id " ++ id ++ " does not exist"

/-- Create creates a new token with the given ID. -/
def CreateToken (tm : TokenManagerServer) (req : CreateTokenRequest) :
    Except String CreateTokenResponse × TokenManagerServer :=
  let id := req.Id
  match tm.tokens id with
  | some _ => (.error (errAlreadyExists id), tm)
  | none =>
      (.ok { Success := true },
        ⟨mapStore tm.tokens id { ID := id, Name := "", Domain := ⟨0, 0, 0⟩, State := ⟨0, 0⟩ }⟩)

/-- Drop deletes the token with the given ID. -/
def DropToken (tm : TokenManagerServer) (req : DropTokenRequest) :
    Except String DropTokenResponse × TokenManagerServer :=
  let id := req.Id
  match tm.tokens id with
  | none => (.error (errDoesNotExist id), tm)
  | some _ => (.ok { Success := true }, ⟨mapDelete tm.tokens id⟩)

/-- The scanning loop of both handlers,
`for i := lo; i < hi; i++ { h := Hash(name, i); if h < minHash { min = i; minHash = h } }`,
run from the counter value `i` with the current `min` and `minHash`. It returns the final
`(min, minHash)`, or `none` when `fuel` iterations did not reach `i ≥ hi`. -/
def scanLoop (name : String) (hi : Nat) : Nat → Nat → Nat → Nat → Option (Nat × Nat)
  | 0, i, min, minHash => if i < hi then none else some (min, minHash)
  | fuel + 1, i, min, minHash =>
      if i < hi then
        let h := Hash name i
        if h < minHash then scanLoop name hi fuel ((i + 1) % 2 ^ 64) i h
        else scanLoop name hi fuel ((i + 1) % 2 ^ 64) min minHash
      else some (min, minHash)

/-- Write sets the properties of the token with the given ID. -/
def WriteToken (fuel : Nat) (tm : TokenManagerServer) (req : WriteTokenRequest) :
    Option (Except String WriteTokenResponse × TokenManagerServer) :=
  let id := req.Id
  match tm.tokens id with
  | none => some (.error (errDoesNotExist id), tm)
  | some t =>
      let t1 : Token := { t with Name := req.Name, Domain := ⟨req.Low, req.Mid, req.High⟩ }
      match scanLoop t1.Name t1.Domain.Mid fuel t1.Domain.Low t1.Domain.Low MaxUint64 with
      | none => none
      | some (min, _) =>
          let t2 : Token := { t1 with State := ⟨min, 0⟩ }
          some (.ok { Partial := t2.State.Partial }, ⟨mapStore tm.tokens id t2⟩)

/-- Read calculates the final state of token. -/
def ReadToken (fuel : Nat) (tm : TokenManagerServer) (req : ReadTokenRequest) :
    Option (Except String ReadTokenResponse × TokenManagerServer) :=
  let id := req.Id
  match tm.tokens id with
  | none => some (.error (errDoesNotExist req.Id), tm)
  | some token =>
      match scanLoop token.Name token.Domain.High fuel token.Domain.Mid 0 MaxUint64 with
      | none => none
      | some (min, minValue) =>
          let hashpartial := Hash token.Name token.State.Partial
          let t1 : Token :=
            if minValue < hashpartial then { token with State := ⟨token.State.Partial, min⟩ }
            else { token with State := ⟨token.State.Partial, token.State.Partial⟩ }
          some (.ok { Final := t1.State.Final }, ⟨mapStore tm.tokens id t1⟩)

/-- The table after `n` consecutive calls of `ReadToken` with the same request, or `none`
when one of the calls did not return within `fuel`. -/
def readRepeat (fuel : Nat) (req : ReadTokenRequest) : Nat → TokenManagerServer →
    Option TokenManagerServer
  | 0, tm => some tm
  | n + 1, tm =>
      match ReadToken fuel tm req with
      | none => none
      | some r => readRepeat fuel req n r.2

/-- The scan of `WriteToken` on a token whose name and domain are set: the loop over
`[low, mid)` started with `min = low` and `minHash = math.MaxUint64`. -/
def writeScan (fuel : Nat) (t : Token) : Option (Nat × Nat) :=
  scanLoop t.Name t.Domain.Mid fuel t.Domain.Low t.Domain.Low MaxUint64

/-- The scan of `ReadToken` on a token: the loop over `[mid, high)` started with
`min = 0` and `minValue = math.MaxUint64`. -/
def readScan (fuel : Nat) (token : Token) : Option (Nat × Nat) :=
  scanLoop token.Name token.Domain.High fuel token.Domain.Mid 0 MaxUint64

/-- The scanning loop together with a record of the counter values at which its body ran
(the arguments of the calls of `Hash`), in the order of the calls. -/
def scanLoopTrace (name : String) (hi : Nat) :
    Nat → Nat → Nat → Nat → List Nat → Option ((Nat × Nat) × List Nat)
  | 0, i, min, minHash, seen => if i < hi then none else some ((min, minHash), seen)
  | fuel + 1, i, min, minHash, seen =>
      if i < hi then
        let h := Hash name i
        if h < minHash then scanLoopTrace name hi fuel ((i + 1) % 2 ^ 64) i h (seen ++ [i])
        else scanLoopTrace name hi fuel ((i + 1) % 2 ^ 64) min minHash (seen ++ [i])
      else some ((min, minHash), seen)

/-- The message of the error a handler returned, if it returned one. -/
def errorMessage {α : Type} : Except String α → Option String
  | .error e => some e
  | .ok _ => none

/-- The UTF-8 bytes of the code point `v` in arithmetic form: one to four bytes, the
leading byte carrying the length and every other byte of the form `128 + x` with `x < 64`. -/
def utf8Bytes (v : Nat) : List Nat :=
  if v ≤ 0x7f then [v]
  else if v ≤ 0x7ff then [192 + v / 64 % 32, 128 + v % 64]
  else if v ≤ 0xffff then [224 + v / 4096 % 16, 128 + v / 64 % 64, 128 + v % 64]
  else [240 + v / 262144 % 8, 128 + v / 4096 % 64, 128 + v / 64 % 64, 128 + v % 64]

/-! ## Specification-side notions -/

/-- A single left-to-right strict-minimum scan over `[lo, hi)`: the current best index
starts at `lo` and is replaced only by an index with a strictly smaller hash. -/
def globalScan (name : String) (lo hi : Nat) : Nat :=
  (List.range' lo (hi - lo)).foldl
    (fun best j => if Hash name j < Hash name best then j else best) lo


/-- Index `m` is the earliest index of `[lo, hi)` at which `Hash name` is minimal:
it lies in the range, no index of the range has a smaller hash, and every earlier index
of the range has a strictly larger one. -/
def IsEarliestMin (name : String) (lo hi m : Nat) : Prop :=
  lo ≤ m ∧ m < hi ∧ (∀ j, lo ≤ j → j < hi → Hash name m ≤ Hash name j) ∧
    (∀ j, lo ≤ j → j < m → Hash name m < Hash name j)

/-- The decimal representation of the spec (section 4.1, step 1): base 10, ASCII digits,
no leading zeros, and "0" for zero. -/
def specDecimal (n : Nat) : List Nat :=
  if n = 0 then [48] else (Nat.digits 10 n).reverse.map fun d => 48 + d

/-- The priority of the spec (section 4.1): the byte string is the name, one space and the
decimal nonce; its SHA-256 digest is taken; the first eight bytes of the digest, most
significant first, are read as an unsigned 64-bit big-endian integer. -/
def specPriority (name : String) (nonce : Nat) : Nat :=
  Nat.ofDigits 256 ((sha256Sum (stringBytes name ++ [32] ++ specDecimal nonce)).take 8).reverse

/-- The invariant of the tables the server can reach: a token is stored under its own
`ID`, and its numeric fields are `uint64` values. -/
def WellFormed (tm : TokenManagerServer) : Prop :=
  ∀ k t, tm.tokens k = some t →
    t.ID = k ∧ t.Domain.Low < 2 ^ 64 ∧ t.Domain.Mid < 2 ^ 64 ∧ t.Domain.High < 2 ^ 64 ∧
      t.State.Partial < 2 ^ 64 ∧ t.State.Final < 2 ^ 64

/-! ## Facts about the library code -/


theorem sha256Sum_byte_lt (msg : List Nat) : ∀ b ∈ sha256Sum msg, b < 256 := by
  intro b hb
  simp only [sha256Sum, putUint32, List.mem_append, List.mem_cons, List.mem_singleton,
    List.not_mem_nil, or_false] at hb
  have h256 : ∀ x : Nat, x % 256 < 256 := fun x => Nat.mod_lt _ (by decide)
  rcases hb with ((((((hb | hb) | hb) | hb) | hb) | hb) | hb) | hb <;>
    rcases hb with hb | hb | hb | hb <;> rw [hb] <;> exact h256 _

theorem sha256Sum_length (msg : List Nat) : (sha256Sum msg).length = 32 := by
  simp [sha256Sum, putUint32]

theorem getD_sha256Sum_lt (msg : List Nat) (k : Nat) : (sha256Sum msg).getD k 0 < 256 := by
  by_cases hk : k < (sha256Sum msg).length
  · rw [List.getD_eq_getElem _ _ hk]
    exact sha256Sum_byte_lt msg _ (List.getElem_mem hk)
  · rw [List.getD_eq_default _ _ (Nat.le_of_not_lt hk)]
    decide

/-- The value of `Hash` is a `uint64`. -/
theorem Hash_lt (name : String) (nonce : Nat) : Hash name nonce < 2 ^ 64 := by
  unfold Hash bigEndianUint64
  have h7 := getD_sha256Sum_lt (sprintfNameNonce name nonce) 7
  have hm : ∀ x : Nat, x % 2 ^ 64 < 2 ^ 64 := fun x => Nat.mod_lt _ (by decide)
  have h7lt : (sha256Sum (sprintfNameNonce name nonce)).getD 7 0 < 2 ^ 64 := by omega
  exact Nat.or_lt_two_pow (Nat.or_lt_two_pow (Nat.or_lt_two_pow (Nat.or_lt_two_pow
    (Nat.or_lt_two_pow (Nat.or_lt_two_pow (Nat.or_lt_two_pow h7lt (hm _)) (hm _)) (hm _))
    (hm _)) (hm _)) (hm _)) (hm _)

theorem Hash_le_max (name : String) (nonce : Nat) : Hash name nonce ≤ MaxUint64 := by
  have := Hash_lt name nonce
  unfold MaxUint64
  omega

/-! ## The scanning loop -/

/-- With `hi` a `uint64` and at least `hi - i` iterations allowed, the loop returns, and
its result is either the initial pair (no index of `[i, hi)` has a hash below `minHash`)
or the earliest index of `[i, hi)` with the minimal hash, which is below `minHash`. -/
theorem scanLoop_spec (name : String) (hi : Nat) (hhi : hi < 2 ^ 64) :
    ∀ fuel i min mh, hi - i ≤ fuel →
      ∃ m v, scanLoop name hi fuel i min mh = some (m, v) ∧
        ((m = min ∧ v = mh ∧ ∀ j, i ≤ j → j < hi → mh ≤ Hash name j) ∨
         (i ≤ m ∧ m < hi ∧ v = Hash name m ∧ v < mh ∧
            (∀ j, i ≤ j → j < hi → v ≤ Hash name j) ∧
            (∀ j, i ≤ j → j < m → v < Hash name j))) := by
  intro fuel
  induction fuel with
  | zero =>
      intro i min mh hf
      have hni : ¬ i < hi := by omega
      refine ⟨min, mh, by simp [scanLoop, hni], Or.inl ⟨rfl, rfl, ?_⟩⟩
      intro j h1 h2
      omega
  | succ fuel ih =>
      intro i min mh hf
      by_cases hlt : i < hi
      · have hstep : (i + 1) % 2 ^ 64 = i + 1 := Nat.mod_eq_of_lt (by omega)
        by_cases hh : Hash name i < mh
        · obtain ⟨m, v, hrun, hres⟩ := ih (i + 1) i (Hash name i) (by omega)
          refine ⟨m, v, by simp only [scanLoop, hlt, hh, if_true, if_false, hstep, hrun], Or.inr ?_⟩
          rcases hres with ⟨hm, hv, hall⟩ | ⟨h1, h2, h3, h4, h5, h6⟩
          · subst hm hv
            refine ⟨le_refl _, hlt, rfl, hh, ?_, ?_⟩
            · intro j hj1 hj2
              rcases Nat.eq_or_lt_of_le hj1 with rfl | hj
              · exact le_refl _
              · exact hall j hj hj2
            · intro j hj1 hj2
              omega
          · refine ⟨by omega, h2, h3, by omega, ?_, ?_⟩
            · intro j hj1 hj2
              rcases Nat.eq_or_lt_of_le hj1 with rfl | hj
              · omega
              · exact h5 j hj hj2
            · intro j hj1 hj2
              rcases Nat.eq_or_lt_of_le hj1 with rfl | hj
              · exact h4
              · exact h6 j hj hj2
        · obtain ⟨m, v, hrun, hres⟩ := ih (i + 1) min mh (by omega)
          refine ⟨m, v, by simp only [scanLoop, hlt, hh, if_true, if_false, hstep, hrun], ?_⟩
          rcases hres with ⟨hm, hv, hall⟩ | ⟨h1, h2, h3, h4, h5, h6⟩
          · refine Or.inl ⟨hm, hv, ?_⟩
            intro j hj1 hj2
            rcases Nat.eq_or_lt_of_le hj1 with rfl | hj
            · omega
            · exact hall j hj hj2
          · refine Or.inr ⟨by omega, h2, h3, h4, ?_, ?_⟩
            · intro j hj1 hj2
              rcases Nat.eq_or_lt_of_le hj1 with rfl | hj
              · omega
              · exact h5 j hj hj2
            · intro j hj1 hj2
              rcases Nat.eq_or_lt_of_le hj1 with rfl | hj
              · omega
              · exact h6 j hj hj2
      · refine ⟨min, mh, by simp [scanLoop, hlt], Or.inl ⟨rfl, rfl, ?_⟩⟩
        intro j h1 h2
        omega

/-- On an empty range the loop returns the initial pair at once, whatever the fuel. -/
theorem scanLoop_empty (name : String) (hi fuel i min mh : Nat) (h : hi ≤ i) :
    scanLoop name hi fuel i min mh = some (min, mh) := by
  have hni : ¬ i < hi := by omega
  cases fuel <;> simp [scanLoop, hni]

/-! ## The handlers in terms of the loop -/

theorem mapStore_same (m : String → Option Token) (id : String) (t : Token) :
    mapStore m id t id = some t := by
  simp [mapStore]

theorem mapStore_other (m : String → Option Token) (id k : String) (t : Token) (h : k ≠ id) :
    mapStore m id t k = m k := by
  simp [mapStore, h]

theorem mapDelete_same (m : String → Option Token) (id : String) : mapDelete m id id = none := by
  simp [mapDelete]

theorem mapDelete_other (m : String → Option Token) (id k : String) (h : k ≠ id) :
    mapDelete m id k = m k := by
  simp [mapDelete, h]

/-- The result of `WriteToken` on a present id, given the result of its loop. -/
theorem WriteToken_of_scan (fuel : Nat) (tm : TokenManagerServer) (req : WriteTokenRequest)
    (t0 : Token) (m v : Nat) (hpresent : tm.tokens req.Id = some t0)
    (hscan : scanLoop req.Name req.Mid fuel req.Low req.Low MaxUint64 = some (m, v)) :
    WriteToken fuel tm req =
      some (.ok ⟨m⟩, ⟨mapStore tm.tokens req.Id
        ⟨t0.ID, req.Name, ⟨req.Low, req.Mid, req.High⟩, ⟨m, 0⟩⟩⟩) := by
  simp only [WriteToken, hpresent, hscan]

/-- The result of `ReadToken` on a present id, given the result of its loop. -/
theorem ReadToken_of_scan (fuel : Nat) (tm : TokenManagerServer) (req : ReadTokenRequest)
    (t : Token) (m v : Nat) (hpresent : tm.tokens req.Id = some t)
    (hscan : scanLoop t.Name t.Domain.High fuel t.Domain.Mid 0 MaxUint64 = some (m, v)) :
    ReadToken fuel tm req =
      some (.ok ⟨if v < Hash t.Name t.State.Partial then m else t.State.Partial⟩,
        ⟨mapStore tm.tokens req.Id
          ⟨t.ID, t.Name, t.Domain, ⟨t.State.Partial,
            if v < Hash t.Name t.State.Partial then m else t.State.Partial⟩⟩⟩) := by
  simp only [ReadToken, hpresent, hscan]
  split <;> rfl

/-- The observation scan of `WriteToken`: with `lo ≤ hi`, `hi` a `uint64` and enough fuel,
the loop returns an index that no index of `[lo, hi)` beats and that is the earliest
minimum of the range when the range is not empty. -/
theorem scanLoop_write (name : String) (lo hi fuel : Nat) (hhi : hi < 2 ^ 64)
    (hfuel : hi - lo ≤ fuel) :
    ∃ m v, scanLoop name hi fuel lo lo MaxUint64 = some (m, v) ∧
      (∀ j, lo ≤ j → j < hi → ¬ Hash name j < Hash name m) ∧
      (lo < hi → IsEarliestMin name lo hi m) := by
  obtain ⟨m, v, hrun, hres⟩ := scanLoop_spec name hi hhi fuel lo lo MaxUint64 hfuel
  refine ⟨m, v, hrun, ?_⟩
  rcases hres with ⟨hm, _, hall⟩ | ⟨h1, h2, h3, _, h5, h6⟩
  · have hmax : ∀ j, lo ≤ j → j < hi → Hash name j = MaxUint64 := fun j h1 h2 =>
      Nat.le_antisymm (Hash_le_max name j) (hall j h1 h2)
    refine ⟨?_, ?_⟩
    · intro j h1 h2
      have := hmax j h1 h2
      have := Hash_le_max name m
      omega
    · intro hlt
      refine ⟨by omega, by omega, ?_, ?_⟩
      · intro j h1 h2
        rw [hmax j h1 h2]
        exact Hash_le_max name m
      · intro j h1 h2
        omega
  · subst h3
    refine ⟨?_, ?_⟩
    · intro j hj1 hj2
      have := h5 j hj1 hj2
      omega
    · intro _
      exact ⟨h1, h2, h5, h6⟩

/-- The decision scan of `ReadToken` against a threshold `hp` that is a `uint64`: with
`hi` a `uint64` and enough fuel, the loop returns a pair `(m, v)` where `v < hp` exactly
when some index of `[mid, hi)` has a hash below `hp`, and in that case `m` is the earliest
minimum of the range and its hash is below `hp`. -/
theorem scanLoop_read (name : String) (mid hi fuel hp : Nat) (hhi : hi < 2 ^ 64)
    (hfuel : hi - mid ≤ fuel) (hhp : hp ≤ MaxUint64) :
    ∃ m v, scanLoop name hi fuel mid 0 MaxUint64 = some (m, v) ∧
      (v < hp ↔ ∃ x, mid ≤ x ∧ x < hi ∧ Hash name x < hp) ∧
      (v < hp → IsEarliestMin name mid hi m ∧ Hash name m < hp) := by
  obtain ⟨m, v, hrun, hres⟩ := scanLoop_spec name hi hhi fuel mid 0 MaxUint64 hfuel
  refine ⟨m, v, hrun, ?_⟩
  rcases hres with ⟨_, hv, hall⟩ | ⟨h1, h2, h3, _, h5, h6⟩
  · refine ⟨⟨fun h => by omega, ?_⟩, fun h => by omega⟩
    rintro ⟨x, hx1, hx2, hx3⟩
    have := hall x hx1 hx2
    omega
  · subst h3
    refine ⟨⟨fun h => ⟨m, h1, h2, h⟩, ?_⟩, fun h => ⟨⟨h1, h2, h5, h6⟩, h⟩⟩
    rintro ⟨x, hx1, hx2, hx3⟩
    have := h5 x hx1 hx2
    omega

/-! ## Reachable tables -/

theorem WellFormed_mapStore (tm : TokenManagerServer) (id : String) (t : Token)
    (hwf : WellFormed tm) (hid : t.ID = id) (h1 : t.Domain.Low < 2 ^ 64)
    (h2 : t.Domain.Mid < 2 ^ 64) (h3 : t.Domain.High < 2 ^ 64) (h4 : t.State.Partial < 2 ^ 64)
    (h5 : t.State.Final < 2 ^ 64) : WellFormed ⟨mapStore tm.tokens id t⟩ := by
  intro k t' hk
  by_cases hki : k = id
  · rw [hki, show (⟨mapStore tm.tokens id t⟩ : TokenManagerServer).tokens id = some t from
      mapStore_same _ _ _] at hk
    cases hk
    exact ⟨hid.trans hki.symm, h1, h2, h3, h4, h5⟩
  · rw [show (⟨mapStore tm.tokens id t⟩ : TokenManagerServer).tokens k = tm.tokens k from
      mapStore_other _ _ _ _ hki] at hk
    exact hwf k t' hk

theorem NewTokenManager_wellFormed : WellFormed NewTokenManager := by
  intro k t hk
  cases hk

theorem CreateToken_wellFormed (tm : TokenManagerServer) (req : CreateTokenRequest)
    (hwf : WellFormed tm) : WellFormed (CreateToken tm req).2 := by
  cases h : tm.tokens req.Id with
  | none =>
      simp only [CreateToken, h]
      have hz : (0 : Nat) < 2 ^ 64 := by decide
      exact WellFormed_mapStore tm req.Id _ hwf rfl hz hz hz hz hz
  | some t =>
      simp only [CreateToken, h]
      exact hwf

theorem DropToken_wellFormed (tm : TokenManagerServer) (req : DropTokenRequest)
    (hwf : WellFormed tm) : WellFormed (DropToken tm req).2 := by
  cases h : tm.tokens req.Id with
  | none =>
      simp only [DropToken, h]
      exact hwf
  | some t =>
      simp only [DropToken, h]
      intro k t' hk
      by_cases hki : k = req.Id
      · rw [hki, show (⟨mapDelete tm.tokens req.Id⟩ : TokenManagerServer).tokens req.Id = none
          from mapDelete_same _ _] at hk
        cases hk
      · rw [show (⟨mapDelete tm.tokens req.Id⟩ : TokenManagerServer).tokens k = tm.tokens k
          from mapDelete_other _ _ _ hki] at hk
        exact hwf k t' hk

theorem WriteToken_wellFormed (fuel : Nat) (tm tm' : TokenManagerServer)
    (req : WriteTokenRequest) (r : Except String WriteTokenResponse) (hwf : WellFormed tm)
    (hlow : req.Low < 2 ^ 64) (hmid : req.Mid < 2 ^ 64) (hhigh : req.High < 2 ^ 64)
    (hfuel : req.Mid - req.Low ≤ fuel) (hrun : WriteToken fuel tm req = some (r, tm')) :
    WellFormed tm' := by
  cases h : tm.tokens req.Id with
  | none =>
      simp only [WriteToken, h, Option.some.injEq, Prod.mk.injEq] at hrun
      rw [← hrun.2]
      exact hwf
  | some t =>
      obtain ⟨m, v, hscan, hres⟩ :=
        scanLoop_spec req.Name req.Mid hmid fuel req.Low req.Low MaxUint64 hfuel
      rw [WriteToken_of_scan fuel tm req t m v h hscan] at hrun
      simp only [Option.some.injEq, Prod.mk.injEq] at hrun
      rw [← hrun.2]
      have hm : m < 2 ^ 64 := by
        rcases hres with ⟨hm, _⟩ | ⟨_, hm, _⟩ <;> omega
      have hz : (0 : Nat) < 2 ^ 64 := by decide
      exact WellFormed_mapStore tm req.Id _ hwf (hwf _ _ h).1 hlow hmid hhigh hm hz

theorem ReadToken_wellFormed (fuel : Nat) (tm tm' : TokenManagerServer)
    (req : ReadTokenRequest) (r : Except String ReadTokenResponse) (hwf : WellFormed tm)
    (hfuel : ∀ t, tm.tokens req.Id = some t → t.Domain.High - t.Domain.Mid ≤ fuel)
    (hrun : ReadToken fuel tm req = some (r, tm')) : WellFormed tm' := by
  cases h : tm.tokens req.Id with
  | none =>
      simp only [ReadToken, h, Option.some.injEq, Prod.mk.injEq] at hrun
      rw [← hrun.2]
      exact hwf
  | some t =>
      obtain ⟨hid, h1, h2, h3, h4, _⟩ := hwf _ _ h
      obtain ⟨m, v, hscan, hres⟩ :=
        scanLoop_spec t.Name t.Domain.High h3 fuel t.Domain.Mid 0 MaxUint64 (hfuel t h)
      rw [ReadToken_of_scan fuel tm req t m v h hscan] at hrun
      simp only [Option.some.injEq, Prod.mk.injEq] at hrun
      rw [← hrun.2]
      have hm : m < 2 ^ 64 := by
        rcases hres with ⟨hm, _⟩ | ⟨_, hm, _⟩ <;> omega
      refine WellFormed_mapStore tm req.Id _ hwf hid h1 h2 h3 h4 ?_
      show (if v < Hash t.Name t.State.Partial then m else t.State.Partial) < 2 ^ 64
      split <;> assumption

/-! ## Claims -/

/-- C1. Observation-phase minimality of `WriteToken`: on a table containing the id, for
every name and all `uint64` bounds (with `low ≤ mid` or not), the write succeeds, the returned
partial is the stored one, no index `j` of `[low, mid)` has
`Hash(name, j) < Hash(name, partial)`, and when `low < mid` the partial lies in
`[low, mid)` and every earlier index of the range has a strictly greater hash. -/
theorem WriteToken_observation_minimality (fuel : Nat) (tm : TokenManagerServer)
    (req : WriteTokenRequest) (t0 : Token) (hpresent : tm.tokens req.Id = some t0)
    (hmid : req.Mid < 2 ^ 64) (hfuel : req.Mid - req.Low ≤ fuel) :
    ∃ p tm' t, WriteToken fuel tm req = some (.ok ⟨p⟩, tm') ∧
      tm'.tokens req.Id = some t ∧ t.State.Partial = p ∧
      (∀ j, req.Low ≤ j → j < req.Mid → ¬ Hash req.Name j < Hash req.Name p) ∧
      (req.Low < req.Mid →
        req.Low ≤ p ∧ p < req.Mid ∧
          ∀ j, req.Low ≤ j → j < p → Hash req.Name p < Hash req.Name j) := by
  obtain ⟨m, v, hrun, hno, hearly⟩ := scanLoop_write req.Name req.Low req.Mid fuel hmid hfuel
  refine ⟨m, _, _, WriteToken_of_scan fuel tm req t0 m v hpresent hrun, mapStore_same _ _ _,
    rfl, hno, ?_⟩
  intro hlt
  obtain ⟨h1, h2, _, h4⟩ := hearly hlt
  exact ⟨h1, h2, h4⟩

theorem WriteToken_observation_minimality_witness :
    ((CreateToken NewTokenManager ⟨"t1"⟩).2.tokens "t1" = some ⟨"t1", "", ⟨0, 0, 0⟩, ⟨0, 0⟩⟩ ∧
      (3 : Nat) < 2 ^ 64 ∧ 3 - 0 ≤ 3) ∧
    ∃ p tm' t,
      WriteToken 3 (CreateToken NewTokenManager ⟨"t1"⟩).2 ⟨"t1", "alice", 0, 3, 6⟩
        = some (.ok ⟨p⟩, tm') ∧
      tm'.tokens "t1" = some t ∧ t.State.Partial = p ∧
      (∀ j, 0 ≤ j → j < 3 → ¬ Hash "alice" j < Hash "alice" p) ∧
      ((0 : Nat) < 3 → 0 ≤ p ∧ p < 3 ∧ ∀ j, 0 ≤ j → j < p → Hash "alice" p < Hash "alice" j) :=
  ⟨⟨rfl, by decide, by decide⟩,
    WriteToken_observation_minimality 3 (CreateToken NewTokenManager ⟨"t1"⟩).2
      ⟨"t1", "alice", 0, 3, 6⟩ ⟨"t1", "", ⟨0, 0, 0⟩, ⟨0, 0⟩⟩ rfl (by decide) (by decide)⟩

/-- C2. Decision rule of `ReadToken`: for a token present in the table, the read succeeds
and stores and returns `final`; if some index of `[mid, high)` has a hash strictly below
`Hash(name, partial)` then `final` is the earliest index of minimal hash in `[mid, high)`,
and otherwise (ties, worse values or an empty range) `final = partial`. -/
theorem ReadToken_decision_rule (fuel : Nat) (tm : TokenManagerServer) (req : ReadTokenRequest)
    (t : Token) (hpresent : tm.tokens req.Id = some t) (hhigh : t.Domain.High < 2 ^ 64)
    (hfuel : t.Domain.High - t.Domain.Mid ≤ fuel) :
    ∃ f tm' t', ReadToken fuel tm req = some (.ok ⟨f⟩, tm') ∧
      tm'.tokens req.Id = some t' ∧ t'.State.Final = f ∧
      ((∃ x, t.Domain.Mid ≤ x ∧ x < t.Domain.High ∧
          Hash t.Name x < Hash t.Name t.State.Partial) →
        IsEarliestMin t.Name t.Domain.Mid t.Domain.High f) ∧
      ((¬ ∃ x, t.Domain.Mid ≤ x ∧ x < t.Domain.High ∧
          Hash t.Name x < Hash t.Name t.State.Partial) →
        f = t.State.Partial) := by
  obtain ⟨m, v, hrun, hiff, hmin⟩ := scanLoop_read t.Name t.Domain.Mid t.Domain.High fuel
    (Hash t.Name t.State.Partial) hhigh hfuel (Hash_le_max _ _)
  refine ⟨_, _, _, ReadToken_of_scan fuel tm req t m v hpresent hrun, mapStore_same _ _ _,
    rfl, ?_, ?_⟩
  · intro hex
    have hv := hiff.2 hex
    rw [if_pos hv]
    exact (hmin hv).1
  · intro hnex
    have hv : ¬ v < Hash t.Name t.State.Partial := fun h => hnex (hiff.1 h)
    rw [if_neg hv]

theorem ReadToken_decision_rule_witness :
    (mapStore NewTokenManager.tokens "t1" ⟨"t1", "alice", ⟨0, 3, 6⟩, ⟨2, 0⟩⟩ "t1"
        = some ⟨"t1", "alice", ⟨0, 3, 6⟩, ⟨2, 0⟩⟩ ∧
      (6 : Nat) < 2 ^ 64 ∧ 6 - 3 ≤ 3) ∧
    ∃ f tm' t',
      ReadToken 3 ⟨mapStore NewTokenManager.tokens "t1" ⟨"t1", "alice", ⟨0, 3, 6⟩, ⟨2, 0⟩⟩⟩
        ⟨"t1"⟩ = some (.ok ⟨f⟩, tm') ∧
      tm'.tokens "t1" = some t' ∧ t'.State.Final = f ∧
      ((∃ x, 3 ≤ x ∧ x < 6 ∧ Hash "alice" x < Hash "alice" 2) →
        IsEarliestMin "alice" 3 6 f) ∧
      ((¬ ∃ x, 3 ≤ x ∧ x < 6 ∧ Hash "alice" x < Hash "alice" 2) → f = 2) :=
  ⟨⟨by simp [mapStore], by decide, by decide⟩,
    ReadToken_decision_rule 3
      ⟨mapStore NewTokenManager.tokens "t1" ⟨"t1", "alice", ⟨0, 3, 6⟩, ⟨2, 0⟩⟩⟩ ⟨"t1"⟩
      ⟨"t1", "alice", ⟨0, 3, 6⟩, ⟨2, 0⟩⟩ (by simp [mapStore]) (by decide) (by decide)⟩

/-- C3. Decision-phase correctness of `ReadToken`: for a token present in the table,
whatever its name, domain and partial, the read succeeds and either `final = partial`, or
`final` lies in `[mid, high)` and `Hash(name, final) < Hash(name, partial)`. -/
theorem ReadToken_decision_correct (fuel : Nat) (tm : TokenManagerServer)
    (req : ReadTokenRequest) (t : Token) (hpresent : tm.tokens req.Id = some t)
    (hhigh : t.Domain.High < 2 ^ 64) (hfuel : t.Domain.High - t.Domain.Mid ≤ fuel) :
    ∃ f tm' t', ReadToken fuel tm req = some (.ok ⟨f⟩, tm') ∧
      tm'.tokens req.Id = some t' ∧ t'.State.Final = f ∧ t'.State.Partial = t.State.Partial ∧
      (f = t.State.Partial ∨
        (t.Domain.Mid ≤ f ∧ f < t.Domain.High ∧
          Hash t.Name f < Hash t.Name t.State.Partial)) := by
  obtain ⟨m, v, hrun, _, hmin⟩ := scanLoop_read t.Name t.Domain.Mid t.Domain.High fuel
    (Hash t.Name t.State.Partial) hhigh hfuel (Hash_le_max _ _)
  refine ⟨_, _, _, ReadToken_of_scan fuel tm req t m v hpresent hrun, mapStore_same _ _ _,
    rfl, rfl, ?_⟩
  by_cases hv : v < Hash t.Name t.State.Partial
  · rw [if_pos hv]
    obtain ⟨⟨h1, h2, _, _⟩, h3⟩ := hmin hv
    exact Or.inr ⟨h1, h2, h3⟩
  · rw [if_neg hv]
    exact Or.inl rfl

theorem ReadToken_decision_correct_witness :
    (mapStore NewTokenManager.tokens "t2" ⟨"t2", "bob", ⟨5, 9, 12⟩, ⟨7, 0⟩⟩ "t2"
        = some ⟨"t2", "bob", ⟨5, 9, 12⟩, ⟨7, 0⟩⟩ ∧
      (12 : Nat) < 2 ^ 64 ∧ 12 - 9 ≤ 4) ∧
    ∃ f tm' t',
      ReadToken 4 ⟨mapStore NewTokenManager.tokens "t2" ⟨"t2", "bob", ⟨5, 9, 12⟩, ⟨7, 0⟩⟩⟩
        ⟨"t2"⟩ = some (.ok ⟨f⟩, tm') ∧
      tm'.tokens "t2" = some t' ∧ t'.State.Final = f ∧ t'.State.Partial = 7 ∧
      (f = 7 ∨ (9 ≤ f ∧ f < 12 ∧ Hash "bob" f < Hash "bob" 7)) :=
  ⟨⟨by simp [mapStore], by decide, by decide⟩,
    ReadToken_decision_correct 4
      ⟨mapStore NewTokenManager.tokens "t2" ⟨"t2", "bob", ⟨5, 9, 12⟩, ⟨7, 0⟩⟩⟩ ⟨"t2"⟩
      ⟨"t2", "bob", ⟨5, 9, 12⟩, ⟨7, 0⟩⟩ (by simp [mapStore]) (by decide) (by decide)⟩

/-- C4. Empty-range fallback: a write with `low ≥ mid` (equal or inverted) on a present id
returns and stores `partial = low`, and a read of a present token whose domain has
`mid ≥ high` returns and stores `final = partial`; both hold for every name, whatever the
hash values are, and with no iteration of the loop allowed. -/
theorem empty_range_fallback (fw fr : Nat) (tmw : TokenManagerServer) (wreq : WriteTokenRequest)
    (t0 : Token) (tmr : TokenManagerServer) (rreq : ReadTokenRequest) (t : Token)
    (hw : tmw.tokens wreq.Id = some t0) (hwe : wreq.Mid ≤ wreq.Low)
    (hr : tmr.tokens rreq.Id = some t) (hre : t.Domain.High ≤ t.Domain.Mid) :
    (∃ tm' t', WriteToken fw tmw wreq = some (.ok ⟨wreq.Low⟩, tm') ∧
      tm'.tokens wreq.Id = some t' ∧ t'.State.Partial = wreq.Low) ∧
    (∃ tm' t', ReadToken fr tmr rreq = some (.ok ⟨t.State.Partial⟩, tm') ∧
      tm'.tokens rreq.Id = some t' ∧ t'.State.Final = t.State.Partial) := by
  constructor
  · exact ⟨_, _, WriteToken_of_scan fw tmw wreq t0 wreq.Low MaxUint64 hw
      (scanLoop_empty _ _ _ _ _ _ hwe), mapStore_same _ _ _, rfl⟩
  · have hrun := ReadToken_of_scan fr tmr rreq t 0 MaxUint64 hr
      (scanLoop_empty _ _ _ _ _ _ hre)
    have hv : ¬ MaxUint64 < Hash t.Name t.State.Partial :=
      Nat.not_lt.mpr (Hash_le_max _ _)
    rw [if_neg hv] at hrun
    exact ⟨_, _, hrun, mapStore_same _ _ _, rfl⟩

theorem empty_range_fallback_witness :
    (mapStore NewTokenManager.tokens "w" ⟨"w", "", ⟨0, 0, 0⟩, ⟨0, 0⟩⟩ "w"
        = some ⟨"w", "", ⟨0, 0, 0⟩, ⟨0, 0⟩⟩ ∧ (4 : Nat) ≤ 9 ∧
      mapStore NewTokenManager.tokens "r" ⟨"r", "carol", ⟨1, 8, 8⟩, ⟨5, 0⟩⟩ "r"
        = some ⟨"r", "carol", ⟨1, 8, 8⟩, ⟨5, 0⟩⟩ ∧ (8 : Nat) ≤ 8) ∧
    ((∃ tm' t',
        WriteToken 0 ⟨mapStore NewTokenManager.tokens "w" ⟨"w", "", ⟨0, 0, 0⟩, ⟨0, 0⟩⟩⟩
          ⟨"w", "dave", 9, 4, 20⟩ = some (.ok ⟨9⟩, tm') ∧
        tm'.tokens "w" = some t' ∧ t'.State.Partial = 9) ∧
      (∃ tm' t',
        ReadToken 0 ⟨mapStore NewTokenManager.tokens "r" ⟨"r", "carol", ⟨1, 8, 8⟩, ⟨5, 0⟩⟩⟩
          ⟨"r"⟩ = some (.ok ⟨5⟩, tm') ∧
        tm'.tokens "r" = some t' ∧ t'.State.Final = 5)) :=
  ⟨⟨by simp [mapStore], by decide, by simp [mapStore], by decide⟩,
    empty_range_fallback 0 0
      ⟨mapStore NewTokenManager.tokens "w" ⟨"w", "", ⟨0, 0, 0⟩, ⟨0, 0⟩⟩⟩ ⟨"w", "dave", 9, 4, 20⟩
      ⟨"w", "", ⟨0, 0, 0⟩, ⟨0, 0⟩⟩
      ⟨mapStore NewTokenManager.tokens "r" ⟨"r", "carol", ⟨1, 8, 8⟩, ⟨5, 0⟩⟩⟩ ⟨"r"⟩
      ⟨"r", "carol", ⟨1, 8, 8⟩, ⟨5, 0⟩⟩ (by simp [mapStore]) (by decide)
      (by simp [mapStore]) (by decide)⟩


/-! ### The hash derivation -/

theorem lor_shift_add (i a l : Nat) (hl : l < 2 ^ i) : l ||| 2 ^ i * a = 2 ^ i * a + l := by
  rw [Nat.lor_comm, ← Nat.mul_add_lt_is_or hl]

theorem shift_mod (b s : Nat) (hb : b < 256) (hs : s ≤ 56) : (b <<< s) % 2 ^ 64 = 2 ^ s * b := by
  rw [Nat.shiftLeft_eq, Nat.mul_comm]
  apply Nat.mod_eq_of_lt
  calc 2 ^ s * b < 2 ^ s * 256 := Nat.mul_lt_mul_of_pos_left hb (Nat.two_pow_pos s)
    _ = 2 ^ (s + 8) := by rw [Nat.pow_add]
    _ ≤ 2 ^ 64 := Nat.pow_le_pow_right (by decide) (by omega)

theorem be_bytes (b0 b1 b2 b3 b4 b5 b6 b7 : Nat) (h0 : b0 < 256) (h1 : b1 < 256)
    (h2 : b2 < 256) (h3 : b3 < 256) (h4 : b4 < 256) (h5 : b5 < 256) (h6 : b6 < 256)
    (h7 : b7 < 256) :
    b7 ||| ((b6 <<< 8) % 2 ^ 64) ||| ((b5 <<< 16) % 2 ^ 64) ||| ((b4 <<< 24) % 2 ^ 64)
      ||| ((b3 <<< 32) % 2 ^ 64) ||| ((b2 <<< 40) % 2 ^ 64) ||| ((b1 <<< 48) % 2 ^ 64)
      ||| ((b0 <<< 56) % 2 ^ 64)
    = b7 + 256 * (b6 + 256 * (b5 + 256 * (b4 + 256 * (b3 + 256 * (b2 + 256 * (b1 + 256 * b0)))))) := by
  rw [shift_mod b6 8 h6 (by decide), shift_mod b5 16 h5 (by decide),
    shift_mod b4 24 h4 (by decide), shift_mod b3 32 h3 (by decide),
    shift_mod b2 40 h2 (by decide), shift_mod b1 48 h1 (by decide),
    shift_mod b0 56 h0 (by decide)]
  rw [lor_shift_add 8 b6 b7 (by omega), lor_shift_add 16 b5 _ (by omega),
    lor_shift_add 24 b4 _ (by omega), lor_shift_add 32 b3 _ (by omega),
    lor_shift_add 40 b2 _ (by omega), lor_shift_add 48 b1 _ (by omega),
    lor_shift_add 56 b0 _ (by omega)]
  omega

theorem specDecimal_of_lt_ten (u : Nat) (h : u < 10) : specDecimal u = [48 + u] := by
  unfold specDecimal
  by_cases h0 : u = 0
  · simp [h0]
  · rw [if_neg h0, Nat.digits_of_lt 10 u h0 h]
    rfl

theorem specDecimal_step (u : Nat) (h : 10 ≤ u) :
    specDecimal u = specDecimal (u / 10) ++ [48 + (u - u / 10 * 10)] := by
  have h0 : u ≠ 0 := by omega
  have h1 : u / 10 ≠ 0 := by omega
  have hmod : u - u / 10 * 10 = u % 10 := by omega
  unfold specDecimal
  rw [if_neg h0, if_neg h1, Nat.digits_def' (by decide) (by omega), hmod]
  simp

/-- The digit loop prints the decimal representation in front of the buffer. -/
theorem fmtInteger_eq : ∀ fuel u buf, u < 10 ^ (fuel + 1) →
    fmtInteger fuel u buf = specDecimal u ++ buf := by
  intro fuel
  induction fuel with
  | zero =>
      intro u buf hu
      rw [specDecimal_of_lt_ten u (by omega)]
      rfl
  | succ fuel ih =>
      intro u buf hu
      by_cases h : 10 ≤ u
      · have hdiv : u / 10 < 10 ^ (fuel + 1) := by
          rw [pow_succ] at hu
          exact Nat.div_lt_of_lt_mul (by omega)
        simp only [fmtInteger, if_pos h]
        rw [ih (u / 10) _ hdiv, specDecimal_step u h]
        simp
      · simp only [fmtInteger, if_neg h]
        rw [specDecimal_of_lt_ten u (by omega)]
        rfl

theorem fmtUint64_eq (u : Nat) (hu : u < 2 ^ 64) : fmtUint64 u = specDecimal u := by
  unfold fmtUint64
  rw [fmtInteger_eq 20 u [] (by omega)]
  simp

/-- Decoding the digest as `binary.BigEndian.Uint64` does gives the big-endian value of its
first eight bytes. -/
theorem bigEndianUint64_sha256Sum (msg : List Nat) :
    bigEndianUint64 (sha256Sum msg) = Nat.ofDigits 256 ((sha256Sum msg).take 8).reverse := by
  have hlen := sha256Sum_length msg
  have hb := getD_sha256Sum_lt msg
  have h0 := hb 0
  have h1 := hb 1
  have h2 := hb 2
  have h3 := hb 3
  have h4 := hb 4
  have h5 := hb 5
  have h6 := hb 6
  have h7 := hb 7
  generalize sha256Sum msg = d at hlen h0 h1 h2 h3 h4 h5 h6 h7
  match d, hlen with
  | b0 :: b1 :: b2 :: b3 :: b4 :: b5 :: b6 :: b7 :: rest, _ =>
      simp only [List.getD_cons_zero, List.getD_cons_succ] at h0 h1 h2 h3 h4 h5 h6 h7
      simp only [bigEndianUint64, List.getD_cons_zero, List.getD_cons_succ]
      rw [be_bytes b0 b1 b2 b3 b4 b5 b6 b7 h0 h1 h2 h3 h4 h5 h6 h7]
      simp [Nat.ofDigits_cons, Nat.ofDigits_nil]

set_option maxRecDepth 100000 in
/-- The digest of "abc" is the test vector of FIPS 180-4 (its first eight bytes). -/
theorem sha256Sum_abc :
    (sha256Sum [97, 98, 99]).take 8 = [0xba, 0x78, 0x16, 0xbf, 0x8f, 0x01, 0xcf, 0xea] := by
  decide

set_option maxRecDepth 100000 in
/-- The value of `Hash("alice", 0)`. -/
theorem Hash_alice_zero : Hash "alice" 0 = 15254557049370585847 := by
  decide

/-- C5. `Hash` is bit-exact as specified: for every name and `uint64` nonce,
`Hash(name, nonce)` is the unsigned 64-bit big-endian integer formed by the first eight
bytes of SHA-256 of the bytes of `name`, one space and the decimal nonce (base 10, ASCII,
no leading zeros, "0" for zero). -/
theorem Hash_bit_exact (name : String) (nonce : Nat) (hnonce : nonce < 2 ^ 64) :
    Hash name nonce = specPriority name nonce := by
  unfold Hash specPriority sprintfNameNonce
  rw [fmtUint64_eq nonce hnonce, bigEndianUint64_sha256Sum]

theorem Hash_bit_exact_witness :
    (18446744073709551615 : Nat) < 2 ^ 64 ∧
      Hash "alice" 18446744073709551615 = specPriority "alice" 18446744073709551615 :=
  ⟨by decide, Hash_bit_exact "alice" 18446744073709551615 (by decide)⟩

/-- C6. `CreateToken`: for every table and id, the call fails exactly when the id is
already present, and then with the "already exists" error; otherwise it succeeds with
`Success = true` and the resulting table maps the id to the zero-valued token
(`ID = id`, empty name, `low = mid = high = 0`, `partial = final = 0`). A second create of
the same id right after the first one fails. -/
theorem CreateToken_spec (tm : TokenManagerServer) (req : CreateTokenRequest) :
    ((∃ e, (CreateToken tm req).1 = .error e) ↔ tm.tokens req.Id ≠ none) ∧
    (tm.tokens req.Id ≠ none →
      CreateToken tm req = (.error (errAlreadyExists req.Id), tm)) ∧
    (tm.tokens req.Id = none →
      (CreateToken tm req).1 = .ok ⟨true⟩ ∧
      (CreateToken tm req).2.tokens req.Id = some ⟨req.Id, "", ⟨0, 0, 0⟩, ⟨0, 0⟩⟩) ∧
    (CreateToken (CreateToken tm req).2 req).1 = .error (errAlreadyExists req.Id) := by
  cases h : tm.tokens req.Id with
  | none =>
      have h1 : CreateToken tm req =
          (.ok ⟨true⟩, ⟨mapStore tm.tokens req.Id ⟨req.Id, "", ⟨0, 0, 0⟩, ⟨0, 0⟩⟩⟩) := by
        simp only [CreateToken, h]
      refine ⟨?_, ?_, ?_, ?_⟩
      · rw [h1]
        simp
      · intro hne
        exact absurd rfl hne
      · intro _
        rw [h1]
        exact ⟨rfl, mapStore_same _ _ _⟩
      · rw [h1]
        simp only [CreateToken, mapStore_same]
  | some t =>
      have h1 : CreateToken tm req = (.error (errAlreadyExists req.Id), tm) := by
        simp only [CreateToken, h]
      refine ⟨?_, ?_, ?_, ?_⟩
      · rw [h1]
        simp
      · intro _
        exact h1
      · intro hne
        exact absurd hne (by simp)
      · rw [h1]
        simp only [CreateToken, h]

/-- The three handlers on an absent id: each returns the "does not exist" error and the
table it was given, whatever the fuel and the request. -/
theorem absent_id_errors (fw fr : Nat) (tm : TokenManagerServer) (wreq : WriteTokenRequest)
    (h : tm.tokens wreq.Id = none) :
    WriteToken fw tm wreq = some (.error (errDoesNotExist wreq.Id), tm) ∧
    ReadToken fr tm ⟨wreq.Id⟩ = some (.error (errDoesNotExist wreq.Id), tm) ∧
    DropToken tm ⟨wreq.Id⟩ = (.error (errDoesNotExist wreq.Id), tm) := by
  refine ⟨?_, ?_, ?_⟩
  · simp only [WriteToken, h]
  · simp only [ReadToken, h]
  · simp only [DropToken, h]

/-- C7. NotFound exactly on absent ids: for every table and id, `WriteToken`, `ReadToken`
and `DropToken` return the "does not exist" error when the id is absent, and when the id is
present each succeeds, for every name and all `uint64` bounds (nothing validates the
bounds); so each of them fails if and only if the id is absent. -/
theorem NotFound_iff_absent (fw fr : Nat) (tm : TokenManagerServer) (wreq : WriteTokenRequest)
    (hmid : wreq.Mid < 2 ^ 64) (hfw : wreq.Mid - wreq.Low ≤ fw)
    (hread : ∀ t, tm.tokens wreq.Id = some t →
      t.Domain.High < 2 ^ 64 ∧ t.Domain.High - t.Domain.Mid ≤ fr) :
    (tm.tokens wreq.Id = none →
      WriteToken fw tm wreq = some (.error (errDoesNotExist wreq.Id), tm) ∧
      ReadToken fr tm ⟨wreq.Id⟩ = some (.error (errDoesNotExist wreq.Id), tm) ∧
      DropToken tm ⟨wreq.Id⟩ = (.error (errDoesNotExist wreq.Id), tm)) ∧
    (tm.tokens wreq.Id ≠ none →
      (∃ r tm', WriteToken fw tm wreq = some (.ok r, tm')) ∧
      (∃ r tm', ReadToken fr tm ⟨wreq.Id⟩ = some (.ok r, tm')) ∧
      (∃ r tm', DropToken tm ⟨wreq.Id⟩ = (.ok r, tm'))) ∧
    ((∃ e tm', WriteToken fw tm wreq = some (.error e, tm')) ↔ tm.tokens wreq.Id = none) ∧
    ((∃ e tm', ReadToken fr tm ⟨wreq.Id⟩ = some (.error e, tm')) ↔
      tm.tokens wreq.Id = none) ∧
    ((∃ e tm', DropToken tm ⟨wreq.Id⟩ = (.error e, tm')) ↔ tm.tokens wreq.Id = none) := by
  cases h : tm.tokens wreq.Id with
  | none =>
      obtain ⟨hw, hr, hd⟩ := absent_id_errors fw fr tm wreq h
      refine ⟨fun _ => ⟨hw, hr, hd⟩, fun hne => absurd rfl hne, ?_, ?_, ?_⟩
      · exact ⟨fun _ => rfl, fun _ => ⟨_, _, hw⟩⟩
      · exact ⟨fun _ => rfl, fun _ => ⟨_, _, hr⟩⟩
      · exact ⟨fun _ => rfl, fun _ => ⟨_, _, hd⟩⟩
  | some t =>
      obtain ⟨hhigh, hfr⟩ := hread t h
      obtain ⟨m, v, hscan, _⟩ :=
        scanLoop_spec wreq.Name wreq.Mid hmid fw wreq.Low wreq.Low MaxUint64 hfw
      obtain ⟨m2, v2, hscan2, _⟩ :=
        scanLoop_spec t.Name t.Domain.High hhigh fr t.Domain.Mid 0 MaxUint64 hfr
      have hw := WriteToken_of_scan fw tm wreq t m v h hscan
      have hr := ReadToken_of_scan fr tm ⟨wreq.Id⟩ t m2 v2 h hscan2
      have hd : DropToken tm ⟨wreq.Id⟩ = (.ok ⟨true⟩, ⟨mapDelete tm.tokens wreq.Id⟩) := by
        simp only [DropToken, h]
      refine ⟨fun hne => absurd hne (by simp), fun _ => ⟨⟨_, _, hw⟩, ⟨_, _, hr⟩, ⟨_, _, hd⟩⟩,
        ?_, ?_, ?_⟩
      · rw [hw]
        simp
      · rw [hr]
        simp
      · rw [hd]
        simp

theorem NotFound_iff_absent_witness :
    ((40 : Nat) < 2 ^ 64 ∧ 40 - 50 ≤ 0 ∧
      ∀ t, mapStore NewTokenManager.tokens "t1" ⟨"t1", "alice", ⟨0, 3, 6⟩, ⟨2, 0⟩⟩ "t1"
          = some t → t.Domain.High < 2 ^ 64 ∧ t.Domain.High - t.Domain.Mid ≤ 3) ∧
    (∃ r tm',
      WriteToken 0 ⟨mapStore NewTokenManager.tokens "t1" ⟨"t1", "alice", ⟨0, 3, 6⟩, ⟨2, 0⟩⟩⟩
        ⟨"t1", "bob", 50, 40, 30⟩ = some (.ok r, tm')) ∧
    ((∃ e tm',
      ReadToken 3 ⟨mapStore NewTokenManager.tokens "t1" ⟨"t1", "alice", ⟨0, 3, 6⟩, ⟨2, 0⟩⟩⟩
        ⟨"t1"⟩ = some (.error e, tm')) ↔
      mapStore NewTokenManager.tokens "t1" ⟨"t1", "alice", ⟨0, 3, 6⟩, ⟨2, 0⟩⟩ "t1" = none) :=
  have hyp : ∀ t, mapStore NewTokenManager.tokens "t1" ⟨"t1", "alice", ⟨0, 3, 6⟩, ⟨2, 0⟩⟩ "t1"
      = some t → t.Domain.High < 2 ^ 64 ∧ t.Domain.High - t.Domain.Mid ≤ 3 := by
    intro t ht
    simp only [mapStore, if_true, Option.some.injEq] at ht
    subst ht
    decide
  have main := NotFound_iff_absent 0 3
    ⟨mapStore NewTokenManager.tokens "t1" ⟨"t1", "alice", ⟨0, 3, 6⟩, ⟨2, 0⟩⟩⟩
    ⟨"t1", "bob", 50, 40, 30⟩ (by decide) (by decide) hyp
  ⟨⟨by decide, by decide, hyp⟩, (main.2.1 (by simp [mapStore])).1, main.2.2.2.1⟩

/-- C8. Atomicity on error: for every table and request, when `CreateToken`, `WriteToken`,
`ReadToken` or `DropToken` returns an error, the table after the call is the table before
it (same ids, same token under every id). -/
theorem error_leaves_table_unchanged (tm : TokenManagerServer) :
    (∀ req e tm', CreateToken tm req = (.error e, tm') → tm' = tm) ∧
    (∀ fuel req e tm', WriteToken fuel tm req = some (.error e, tm') → tm' = tm) ∧
    (∀ fuel req e tm', ReadToken fuel tm req = some (.error e, tm') → tm' = tm) ∧
    (∀ req e tm', DropToken tm req = (.error e, tm') → tm' = tm) := by
  refine ⟨?_, ?_, ?_, ?_⟩
  · intro req e tm' h
    cases hk : tm.tokens req.Id with
    | none =>
        simp only [CreateToken, hk, Prod.mk.injEq] at h
        exact absurd h.1 (by simp)
    | some t =>
        simp only [CreateToken, hk, Prod.mk.injEq] at h
        exact h.2.symm
  · intro fuel req e tm' h
    cases hk : tm.tokens req.Id with
    | none =>
        simp only [WriteToken, hk, Option.some.injEq, Prod.mk.injEq] at h
        exact h.2.symm
    | some t =>
        simp only [WriteToken, hk] at h
        split at h
        · exact absurd h (by simp)
        · simp only [Option.some.injEq, Prod.mk.injEq] at h
          exact absurd h.1 (by simp)
  · intro fuel req e tm' h
    cases hk : tm.tokens req.Id with
    | none =>
        simp only [ReadToken, hk, Option.some.injEq, Prod.mk.injEq] at h
        exact h.2.symm
    | some t =>
        simp only [ReadToken, hk] at h
        split at h
        · exact absurd h (by simp)
        · simp only [Option.some.injEq, Prod.mk.injEq] at h
          exact absurd h.1 (by simp)
  · intro req e tm' h
    cases hk : tm.tokens req.Id with
    | none =>
        simp only [DropToken, hk, Prod.mk.injEq] at h
        exact h.2.symm
    | some t =>
        simp only [DropToken, hk, Prod.mk.injEq] at h
        exact absurd h.1 (by simp)

/-- Repeated reads of a present token return, and leave under the id a token with the
same `ID`, name and domain. -/
theorem readRepeat_keeps (fuel : Nat) (id : String) : ∀ (n : Nat) (tm : TokenManagerServer)
    (t : Token), tm.tokens id = some t → t.Domain.High < 2 ^ 64 →
    t.Domain.High - t.Domain.Mid ≤ fuel →
    ∃ tm2 t2, readRepeat fuel ⟨id⟩ n tm = some tm2 ∧ tm2.tokens id = some t2 ∧
      t2.ID = t.ID ∧ t2.Name = t.Name ∧ t2.Domain = t.Domain := by
  intro n
  induction n with
  | zero =>
      intro tm t ht _ _
      exact ⟨tm, t, rfl, ht, rfl, rfl, rfl⟩
  | succ n ih =>
      intro tm t ht hhigh hfuel
      obtain ⟨m, v, hscan, _⟩ :=
        scanLoop_spec t.Name t.Domain.High hhigh fuel t.Domain.Mid 0 MaxUint64 hfuel
      have hr := ReadToken_of_scan fuel tm ⟨id⟩ t m v ht hscan
      generalize (if v < Hash t.Name t.State.Partial then m else t.State.Partial) = f at hr
      obtain ⟨tm2, t2, hrun, hget, h1, h2, h3⟩ :=
        ih ⟨mapStore tm.tokens id ⟨t.ID, t.Name, t.Domain, ⟨t.State.Partial, f⟩⟩⟩
          ⟨t.ID, t.Name, t.Domain, ⟨t.State.Partial, f⟩⟩ (mapStore_same _ _ _) hhigh hfuel
      exact ⟨tm2, t2, by simp only [readRepeat, hr, hrun], hget, h1, h2, h3⟩

/-- C9. Re-write leaves no residue: on a table containing the id, a write `a`, then any
number of reads, then a write `b` returns the same partial and leaves under the id exactly
the token record that the write `b` leaves on a freshly created token: the name and domain
are those of `b`, the partial is the observation result for `b`, and the final is 0. -/
theorem rewrite_leaves_no_residue (fa fr fb n : Nat) (tm fresh : TokenManagerServer)
    (t0 : Token) (a b : WriteTokenRequest)
    (hpresent : tm.tokens a.Id = some t0) (hid : t0.ID = a.Id) (hab : b.Id = a.Id)
    (hfresh : fresh.tokens a.Id = none)
    (hamid : a.Mid < 2 ^ 64) (hahigh : a.High < 2 ^ 64) (hbmid : b.Mid < 2 ^ 64)
    (hfa : a.Mid - a.Low ≤ fa) (hfr : a.High - a.Mid ≤ fr) (hfb : b.Mid - b.Low ≤ fb) :
    ∃ ra tm1 tm2 p tm3 tm3',
      WriteToken fa tm a = some (.ok ra, tm1) ∧
      readRepeat fr ⟨a.Id⟩ n tm1 = some tm2 ∧
      WriteToken fb tm2 b = some (.ok ⟨p⟩, tm3) ∧
      WriteToken fb (CreateToken fresh ⟨a.Id⟩).2 b = some (.ok ⟨p⟩, tm3') ∧
      tm3.tokens a.Id = tm3'.tokens a.Id ∧
      tm3.tokens a.Id = some ⟨a.Id, b.Name, ⟨b.Low, b.Mid, b.High⟩, ⟨p, 0⟩⟩ := by
  obtain ⟨ma, va, hscana, _⟩ :=
    scanLoop_spec a.Name a.Mid hamid fa a.Low a.Low MaxUint64 hfa
  obtain ⟨mb, vb, hscanb, _⟩ :=
    scanLoop_spec b.Name b.Mid hbmid fb b.Low b.Low MaxUint64 hfb
  have hwa := WriteToken_of_scan fa tm a t0 ma va hpresent hscana
  obtain ⟨tm2, t2, hreads, hget2, hid2, _, _⟩ := readRepeat_keeps fr a.Id n
    ⟨mapStore tm.tokens a.Id ⟨t0.ID, a.Name, ⟨a.Low, a.Mid, a.High⟩, ⟨ma, 0⟩⟩⟩ _
    (mapStore_same _ _ _) hahigh hfr
  have hget2b : tm2.tokens b.Id = some t2 := by rw [hab]; exact hget2
  have hwb := WriteToken_of_scan fb tm2 b t2 mb vb hget2b hscanb
  have hcreate : CreateToken fresh ⟨a.Id⟩ =
      (.ok ⟨true⟩, ⟨mapStore fresh.tokens a.Id ⟨a.Id, "", ⟨0, 0, 0⟩, ⟨0, 0⟩⟩⟩) := by
    simp only [CreateToken, hfresh]
  have hgetf : (CreateToken fresh ⟨a.Id⟩).2.tokens b.Id = some ⟨a.Id, "", ⟨0, 0, 0⟩, ⟨0, 0⟩⟩ := by
    rw [hcreate, hab]
    exact mapStore_same _ _ _
  have hwf := WriteToken_of_scan fb (CreateToken fresh ⟨a.Id⟩).2 b _ mb vb hgetf hscanb
  have hkey : t2.ID = a.Id := by rw [hid2]; exact hid
  refine ⟨_, _, tm2, mb, _, _, hwa, hreads, hwb, hwf, ?_, ?_⟩
  · simp only [hab, mapStore_same, hkey]
  · simp only [hab, mapStore_same, hkey]

theorem rewrite_leaves_no_residue_witness :
    (mapStore NewTokenManager.tokens "t1" ⟨"t1", "old", ⟨4, 4, 4⟩, ⟨4, 4⟩⟩ "t1"
        = some ⟨"t1", "old", ⟨4, 4, 4⟩, ⟨4, 4⟩⟩ ∧
      NewTokenManager.tokens "t1" = none ∧
      (3 : Nat) < 2 ^ 64 ∧ (6 : Nat) < 2 ^ 64 ∧ (12 : Nat) < 2 ^ 64 ∧
      3 - 0 ≤ 3 ∧ 6 - 3 ≤ 3 ∧ 12 - 10 ≤ 2) ∧
    ∃ ra tm1 tm2 p tm3 tm3',
      WriteToken 3 ⟨mapStore NewTokenManager.tokens "t1" ⟨"t1", "old", ⟨4, 4, 4⟩, ⟨4, 4⟩⟩⟩
        ⟨"t1", "alice", 0, 3, 6⟩ = some (.ok ra, tm1) ∧
      readRepeat 3 ⟨"t1"⟩ 2 tm1 = some tm2 ∧
      WriteToken 2 tm2 ⟨"t1", "bob", 10, 12, 15⟩ = some (.ok ⟨p⟩, tm3) ∧
      WriteToken 2 (CreateToken NewTokenManager ⟨"t1"⟩).2 ⟨"t1", "bob", 10, 12, 15⟩
        = some (.ok ⟨p⟩, tm3') ∧
      tm3.tokens "t1" = tm3'.tokens "t1" ∧
      tm3.tokens "t1" = some ⟨"t1", "bob", ⟨10, 12, 15⟩, ⟨p, 0⟩⟩ :=
  ⟨⟨by simp [mapStore], rfl, by decide, by decide, by decide, by decide, by decide, by decide⟩,
    rewrite_leaves_no_residue 3 3 2 2
      ⟨mapStore NewTokenManager.tokens "t1" ⟨"t1", "old", ⟨4, 4, 4⟩, ⟨4, 4⟩⟩⟩ NewTokenManager
      ⟨"t1", "old", ⟨4, 4, 4⟩, ⟨4, 4⟩⟩ ⟨"t1", "alice", 0, 3, 6⟩ ⟨"t1", "bob", 10, 12, 15⟩
      (by simp [mapStore]) rfl rfl rfl (by decide) (by decide) (by decide) (by decide)
      (by decide) (by decide)⟩

/-- C10. Drop returns the id to absent from any present state: for every table containing
the id, whatever its token holds, `DropToken` succeeds with `Success = true` and afterwards
the id is absent; a following read, write or drop of the id returns the "does not exist"
error, and a following create succeeds and stores the zero-valued token, with nothing of
the dropped token. -/
theorem DropToken_returns_to_absent (fw fr : Nat) (tm : TokenManagerServer) (t : Token)
    (wreq : WriteTokenRequest) (hpresent : tm.tokens wreq.Id = some t) :
    ∃ tm', DropToken tm ⟨wreq.Id⟩ = (.ok ⟨true⟩, tm') ∧ tm'.tokens wreq.Id = none ∧
      (∀ k, k ≠ wreq.Id → tm'.tokens k = tm.tokens k) ∧
      ReadToken fr tm' ⟨wreq.Id⟩ = some (.error (errDoesNotExist wreq.Id), tm') ∧
      WriteToken fw tm' wreq = some (.error (errDoesNotExist wreq.Id), tm') ∧
      DropToken tm' ⟨wreq.Id⟩ = (.error (errDoesNotExist wreq.Id), tm') ∧
      ∃ tm'', CreateToken tm' ⟨wreq.Id⟩ = (.ok ⟨true⟩, tm'') ∧
        tm''.tokens wreq.Id = some ⟨wreq.Id, "", ⟨0, 0, 0⟩, ⟨0, 0⟩⟩ := by
  have hd : DropToken tm ⟨wreq.Id⟩ = (.ok ⟨true⟩, ⟨mapDelete tm.tokens wreq.Id⟩) := by
    simp only [DropToken, hpresent]
  have habs : (⟨mapDelete tm.tokens wreq.Id⟩ : TokenManagerServer).tokens wreq.Id = none :=
    mapDelete_same _ _
  obtain ⟨hw, hr, hdd⟩ := absent_id_errors fw fr ⟨mapDelete tm.tokens wreq.Id⟩ wreq habs
  refine ⟨_, hd, habs, fun k hk => mapDelete_other _ _ _ hk, hr, hw, hdd,
    ⟨mapStore (mapDelete tm.tokens wreq.Id) wreq.Id ⟨wreq.Id, "", ⟨0, 0, 0⟩, ⟨0, 0⟩⟩⟩, ?_,
    mapStore_same _ _ _⟩
  simp only [CreateToken, mapDelete_same]

theorem DropToken_returns_to_absent_witness :
    mapStore NewTokenManager.tokens "t1" ⟨"t1", "alice", ⟨0, 3, 6⟩, ⟨2, 3⟩⟩ "t1"
        = some ⟨"t1", "alice", ⟨0, 3, 6⟩, ⟨2, 3⟩⟩ ∧
    ∃ tm',
      DropToken ⟨mapStore NewTokenManager.tokens "t1" ⟨"t1", "alice", ⟨0, 3, 6⟩, ⟨2, 3⟩⟩⟩
        ⟨"t1"⟩ = (.ok ⟨true⟩, tm') ∧ tm'.tokens "t1" = none ∧
      (∀ k, k ≠ "t1" → tm'.tokens k =
        mapStore NewTokenManager.tokens "t1" ⟨"t1", "alice", ⟨0, 3, 6⟩, ⟨2, 3⟩⟩ k) ∧
      ReadToken 5 tm' ⟨"t1"⟩ = some (.error (errDoesNotExist "t1"), tm') ∧
      WriteToken 5 tm' ⟨"t1", "bob", 1, 2, 3⟩ = some (.error (errDoesNotExist "t1"), tm') ∧
      DropToken tm' ⟨"t1"⟩ = (.error (errDoesNotExist "t1"), tm') ∧
      ∃ tm'', CreateToken tm' ⟨"t1"⟩ = (.ok ⟨true⟩, tm'') ∧
        tm''.tokens "t1" = some ⟨"t1", "", ⟨0, 0, 0⟩, ⟨0, 0⟩⟩ :=
  ⟨by simp [mapStore],
    DropToken_returns_to_absent 5 5
      ⟨mapStore NewTokenManager.tokens "t1" ⟨"t1", "alice", ⟨0, 3, 6⟩, ⟨2, 3⟩⟩⟩
      ⟨"t1", "alice", ⟨0, 3, 6⟩, ⟨2, 3⟩⟩ ⟨"t1", "bob", 1, 2, 3⟩ (by simp [mapStore])⟩

/-- `ReadToken` runs `readScan` on the stored token and `WriteToken` runs `writeScan` on
the token with the name and domain of the request. -/
theorem handlers_run_scans (fuel : Nat) (tm : TokenManagerServer) (wreq : WriteTokenRequest)
    (rreq : ReadTokenRequest) (t : Token) (m v : Nat) :
    (tm.tokens rreq.Id = some t → readScan fuel t = some (m, v) →
      ReadToken fuel tm rreq =
        some (.ok ⟨if v < Hash t.Name t.State.Partial then m else t.State.Partial⟩,
          ⟨mapStore tm.tokens rreq.Id
            ⟨t.ID, t.Name, t.Domain, ⟨t.State.Partial,
              if v < Hash t.Name t.State.Partial then m else t.State.Partial⟩⟩⟩)) ∧
    (tm.tokens wreq.Id = some t →
      writeScan fuel ⟨t.ID, wreq.Name, ⟨wreq.Low, wreq.Mid, wreq.High⟩, t.State⟩ = some (m, v) →
      WriteToken fuel tm wreq =
        some (.ok ⟨m⟩, ⟨mapStore tm.tokens wreq.Id
          ⟨t.ID, wreq.Name, ⟨wreq.Low, wreq.Mid, wreq.High⟩, ⟨m, 0⟩⟩⟩)) :=
  ⟨fun h hs => ReadToken_of_scan fuel tm rreq t m v h hs,
    fun h hs => WriteToken_of_scan fuel tm wreq t m v h hs⟩

/-- C11. Read before any write is well defined: when `CreateToken` has created the id, a
read that follows directly does not fail, for any fuel; the token is the zero-valued one,
the decision scan runs over the empty range `[0, 0)` with `partial = 0`, and the read
stores and returns `final = 0`. -/
theorem read_after_create (fuel : Nat) (tm tm1 : TokenManagerServer) (id : String)
    (r : CreateTokenResponse) (hcreate : CreateToken tm ⟨id⟩ = (.ok r, tm1)) :
    tm1.tokens id = some ⟨id, "", ⟨0, 0, 0⟩, ⟨0, 0⟩⟩ ∧
    readScan fuel ⟨id, "", ⟨0, 0, 0⟩, ⟨0, 0⟩⟩ = some (0, MaxUint64) ∧
    ∃ tm2, ReadToken fuel tm1 ⟨id⟩ = some (.ok ⟨0⟩, tm2) ∧
      tm2.tokens id = some ⟨id, "", ⟨0, 0, 0⟩, ⟨0, 0⟩⟩ := by
  have hget : tm1.tokens id = some ⟨id, "", ⟨0, 0, 0⟩, ⟨0, 0⟩⟩ := by
    cases h : tm.tokens id with
    | none =>
        simp only [CreateToken, h, Prod.mk.injEq] at hcreate
        rw [← hcreate.2]
        exact mapStore_same _ _ _
    | some t =>
        simp only [CreateToken, h, Prod.mk.injEq] at hcreate
        exact absurd hcreate.1 (by simp)
  have hscan : scanLoop "" 0 fuel 0 0 MaxUint64 = some (0, MaxUint64) :=
    scanLoop_empty _ _ _ _ _ _ (le_refl _)
  have hrun := ReadToken_of_scan fuel tm1 ⟨id⟩ _ 0 MaxUint64 hget hscan
  have hv : ¬ MaxUint64 < Hash "" 0 := Nat.not_lt.mpr (Hash_le_max _ _)
  simp only [if_neg hv] at hrun
  exact ⟨hget, hscan, _, hrun, mapStore_same _ _ _⟩

theorem read_after_create_witness :
    CreateToken NewTokenManager ⟨"t1"⟩
        = (.ok ⟨true⟩, ⟨mapStore NewTokenManager.tokens "t1" ⟨"t1", "", ⟨0, 0, 0⟩, ⟨0, 0⟩⟩⟩) ∧
    ∃ tm2,
      ReadToken 0 ⟨mapStore NewTokenManager.tokens "t1" ⟨"t1", "", ⟨0, 0, 0⟩, ⟨0, 0⟩⟩⟩ ⟨"t1"⟩
        = some (.ok ⟨0⟩, tm2) ∧
      tm2.tokens "t1" = some ⟨"t1", "", ⟨0, 0, 0⟩, ⟨0, 0⟩⟩ :=
  ⟨rfl, (read_after_create 0 NewTokenManager _ "t1" ⟨true⟩ rfl).2.2⟩

/-- A handler on `id` that returned left the entry of every other id as it was. -/
theorem WriteToken_other (fuel : Nat) (tm tm' : TokenManagerServer) (req : WriteTokenRequest)
    (r : Except String WriteTokenResponse) (k : String) (hk : k ≠ req.Id)
    (hrun : WriteToken fuel tm req = some (r, tm')) : tm'.tokens k = tm.tokens k := by
  cases h : tm.tokens req.Id with
  | none =>
      simp only [WriteToken, h, Option.some.injEq, Prod.mk.injEq] at hrun
      rw [← hrun.2]
  | some t =>
      simp only [WriteToken, h] at hrun
      split at hrun
      · exact absurd hrun (by simp)
      · simp only [Option.some.injEq, Prod.mk.injEq] at hrun
        rw [← hrun.2]
        exact mapStore_other _ _ _ _ hk

theorem ReadToken_other (fuel : Nat) (tm tm' : TokenManagerServer) (req : ReadTokenRequest)
    (r : Except String ReadTokenResponse) (k : String) (hk : k ≠ req.Id)
    (hrun : ReadToken fuel tm req = some (r, tm')) : tm'.tokens k = tm.tokens k := by
  cases h : tm.tokens req.Id with
  | none =>
      simp only [ReadToken, h, Option.some.injEq, Prod.mk.injEq] at hrun
      rw [← hrun.2]
  | some t =>
      simp only [ReadToken, h] at hrun
      split at hrun
      · exact absurd hrun (by simp)
      · simp only [Option.some.injEq, Prod.mk.injEq] at hrun
        rw [← hrun.2]
        exact mapStore_other _ _ _ _ hk

theorem CreateToken_other (tm : TokenManagerServer) (req : CreateTokenRequest) (k : String)
    (hk : k ≠ req.Id) : (CreateToken tm req).2.tokens k = tm.tokens k := by
  cases h : tm.tokens req.Id with
  | none =>
      simp only [CreateToken, h]
      exact mapStore_other _ _ _ _ hk
  | some t => simp only [CreateToken, h]

theorem DropToken_other (tm : TokenManagerServer) (req : DropTokenRequest) (k : String)
    (hk : k ≠ req.Id) : (DropToken tm req).2.tokens k = tm.tokens k := by
  cases h : tm.tokens req.Id with
  | none => simp only [DropToken, h]
  | some t =>
      simp only [DropToken, h]
      exact mapDelete_other _ _ _ hk

/-- C13. Operations on distinct identifiers never share state: for every table, every id
and every other id `k`, a `CreateToken`, `WriteToken`, `ReadToken` or `DropToken` on the id,
successful or failed, leaves the entry of `k` as it was: `k` is present after the call
exactly when it was before, with the same token in every field. -/
theorem other_ids_unchanged (tm : TokenManagerServer) (id k : String) (hk : k ≠ id) :
    (CreateToken tm ⟨id⟩).2.tokens k = tm.tokens k ∧
    (DropToken tm ⟨id⟩).2.tokens k = tm.tokens k ∧
    (∀ fuel name low mid high r tm',
      WriteToken fuel tm ⟨id, name, low, mid, high⟩ = some (r, tm') →
        tm'.tokens k = tm.tokens k) ∧
    (∀ fuel r tm', ReadToken fuel tm ⟨id⟩ = some (r, tm') → tm'.tokens k = tm.tokens k) :=
  ⟨CreateToken_other tm ⟨id⟩ k hk, DropToken_other tm ⟨id⟩ k hk,
    fun fuel name low mid high r tm' h =>
      WriteToken_other fuel tm tm' ⟨id, name, low, mid, high⟩ r k hk h,
    fun fuel r tm' h => ReadToken_other fuel tm tm' ⟨id⟩ r k hk h⟩

theorem other_ids_unchanged_witness :
    "t2" ≠ "t1" ∧
    (DropToken ⟨mapStore (mapStore NewTokenManager.tokens "t2" ⟨"t2", "bob", ⟨1, 2, 3⟩, ⟨1, 2⟩⟩)
        "t1" ⟨"t1", "alice", ⟨0, 3, 6⟩, ⟨2, 3⟩⟩⟩ ⟨"t1"⟩).2.tokens "t2"
      = mapStore (mapStore NewTokenManager.tokens "t2" ⟨"t2", "bob", ⟨1, 2, 3⟩, ⟨1, 2⟩⟩)
        "t1" ⟨"t1", "alice", ⟨0, 3, 6⟩, ⟨2, 3⟩⟩ "t2" :=
  ⟨by decide,
    (other_ids_unchanged
      ⟨mapStore (mapStore NewTokenManager.tokens "t2" ⟨"t2", "bob", ⟨1, 2, 3⟩, ⟨1, 2⟩⟩)
        "t1" ⟨"t1", "alice", ⟨0, 3, 6⟩, ⟨2, 3⟩⟩⟩ "t1" "t2" (by decide)).2.1⟩

/-- Storing the same token under the same id twice is storing it once. -/
theorem mapStore_mapStore (m : String → Option Token) (id : String) (a b : Token) :
    mapStore (mapStore m id a) id b = mapStore m id b := by
  funext k
  by_cases hk : k = id <;> simp [mapStore, hk]

/-- C17. `ReadToken` changes only `State.Final`: for a token present in the table the read
returns, the token stored afterwards has the ID, name, low, mid, high and partial it had
before, its final is the returned value, every other id keeps its entry, and an id is
present after the call exactly when it was present before. -/
theorem ReadToken_changes_only_final (fuel : Nat) (tm : TokenManagerServer)
    (req : ReadTokenRequest) (t : Token) (hpresent : tm.tokens req.Id = some t)
    (hhigh : t.Domain.High < 2 ^ 64) (hfuel : t.Domain.High - t.Domain.Mid ≤ fuel) :
    ∃ f tm', ReadToken fuel tm req = some (.ok ⟨f⟩, tm') ∧
      tm'.tokens req.Id = some ⟨t.ID, t.Name, ⟨t.Domain.Low, t.Domain.Mid, t.Domain.High⟩,
        ⟨t.State.Partial, f⟩⟩ ∧
      (∀ k, k ≠ req.Id → tm'.tokens k = tm.tokens k) ∧
      (∀ k, (tm'.tokens k).isSome = (tm.tokens k).isSome) := by
  obtain ⟨m, v, hscan, _⟩ :=
    scanLoop_spec t.Name t.Domain.High hhigh fuel t.Domain.Mid 0 MaxUint64 hfuel
  have hrun := ReadToken_of_scan fuel tm req t m v hpresent hscan
  refine ⟨_, _, hrun, mapStore_same _ _ _, fun k hk => mapStore_other _ _ _ _ hk, ?_⟩
  intro k
  by_cases hk : k = req.Id
  · rw [hk, hpresent]
    simp [mapStore]
  · simp [mapStore, hk]

theorem ReadToken_changes_only_final_witness :
    (mapStore NewTokenManager.tokens "t1" ⟨"t1", "alice", ⟨0, 3, 6⟩, ⟨2, 0⟩⟩ "t1"
        = some ⟨"t1", "alice", ⟨0, 3, 6⟩, ⟨2, 0⟩⟩ ∧ (6 : Nat) < 2 ^ 64 ∧ 6 - 3 ≤ 3) ∧
    ∃ f tm',
      ReadToken 3 ⟨mapStore NewTokenManager.tokens "t1" ⟨"t1", "alice", ⟨0, 3, 6⟩, ⟨2, 0⟩⟩⟩
        ⟨"t1"⟩ = some (.ok ⟨f⟩, tm') ∧
      tm'.tokens "t1" = some ⟨"t1", "alice", ⟨0, 3, 6⟩, ⟨2, f⟩⟩ ∧
      (∀ k, k ≠ "t1" → tm'.tokens k =
        mapStore NewTokenManager.tokens "t1" ⟨"t1", "alice", ⟨0, 3, 6⟩, ⟨2, 0⟩⟩ k) ∧
      (∀ k, (tm'.tokens k).isSome =
        (mapStore NewTokenManager.tokens "t1" ⟨"t1", "alice", ⟨0, 3, 6⟩, ⟨2, 0⟩⟩ k).isSome) :=
  ⟨⟨by simp [mapStore], by decide, by decide⟩,
    ReadToken_changes_only_final 3
      ⟨mapStore NewTokenManager.tokens "t1" ⟨"t1", "alice", ⟨0, 3, 6⟩, ⟨2, 0⟩⟩⟩ ⟨"t1"⟩
      ⟨"t1", "alice", ⟨0, 3, 6⟩, ⟨2, 0⟩⟩ (by simp [mapStore]) (by decide) (by decide)⟩

/-- C18. `ReadToken` is idempotent: for a token present in the table, two consecutive reads
both return, with the same final, and the table after the second read is the table after
the first. -/
theorem ReadToken_idempotent (fuel : Nat) (tm : TokenManagerServer) (req : ReadTokenRequest)
    (t : Token) (hpresent : tm.tokens req.Id = some t) (hhigh : t.Domain.High < 2 ^ 64)
    (hfuel : t.Domain.High - t.Domain.Mid ≤ fuel) :
    ∃ f tm1, ReadToken fuel tm req = some (.ok ⟨f⟩, tm1) ∧
      ReadToken fuel tm1 req = some (.ok ⟨f⟩, tm1) := by
  obtain ⟨m, v, hscan, _⟩ :=
    scanLoop_spec t.Name t.Domain.High hhigh fuel t.Domain.Mid 0 MaxUint64 hfuel
  have hrun := ReadToken_of_scan fuel tm req t m v hpresent hscan
  have hrun2 := ReadToken_of_scan fuel
    ⟨mapStore tm.tokens req.Id ⟨t.ID, t.Name, t.Domain, ⟨t.State.Partial,
      if v < Hash t.Name t.State.Partial then m else t.State.Partial⟩⟩⟩ req
    ⟨t.ID, t.Name, t.Domain, ⟨t.State.Partial,
      if v < Hash t.Name t.State.Partial then m else t.State.Partial⟩⟩ m v
    (mapStore_same _ _ _) hscan
  refine ⟨_, _, hrun, ?_⟩
  rw [hrun2]
  simp only [mapStore_mapStore]

theorem ReadToken_idempotent_witness :
    (mapStore NewTokenManager.tokens "t1" ⟨"t1", "alice", ⟨0, 3, 6⟩, ⟨2, 0⟩⟩ "t1"
        = some ⟨"t1", "alice", ⟨0, 3, 6⟩, ⟨2, 0⟩⟩ ∧ (6 : Nat) < 2 ^ 64 ∧ 6 - 3 ≤ 3) ∧
    ∃ f tm1,
      ReadToken 3 ⟨mapStore NewTokenManager.tokens "t1" ⟨"t1", "alice", ⟨0, 3, 6⟩, ⟨2, 0⟩⟩⟩
        ⟨"t1"⟩ = some (.ok ⟨f⟩, tm1) ∧
      ReadToken 3 tm1 ⟨"t1"⟩ = some (.ok ⟨f⟩, tm1) :=
  ⟨⟨by simp [mapStore], by decide, by decide⟩,
    ReadToken_idempotent 3
      ⟨mapStore NewTokenManager.tokens "t1" ⟨"t1", "alice", ⟨0, 3, 6⟩, ⟨2, 0⟩⟩⟩ ⟨"t1"⟩
      ⟨"t1", "alice", ⟨0, 3, 6⟩, ⟨2, 0⟩⟩ (by simp [mapStore]) (by decide) (by decide)⟩

/-- The two error messages differ for every id. -/
theorem errAlreadyExists_ne_errDoesNotExist (id : String) :
    errAlreadyExists id ≠ errDoesNotExist id := by
  intro h
  have hd := congrArg String.data h
  simp only [errAlreadyExists, errDoesNotExist, String.data_append, List.append_assoc] at hd
  have h2 := List.append_cancel_left (List.append_cancel_left hd)
  exact absurd h2 (by decide)

/-- C14, as the claim states it, fails: for the absent id "t1" the errors of `WriteToken`,
`ReadToken` and `DropToken` carry one and the same message, so the message does not tell
which of the three operations failed. -/
theorem error_message_names_no_operation :
    (WriteToken 0 NewTokenManager ⟨"t1", "alice", 0, 3, 6⟩).map (fun r => errorMessage r.1)
      = some (some "token with id t1 does not exist") ∧
    (ReadToken 0 NewTokenManager ⟨"t1"⟩).map (fun r => errorMessage r.1)
      = some (some "token with id t1 does not exist") ∧
    errorMessage (DropToken NewTokenManager ⟨"t1"⟩).1 = some "token with id t1 does not exist" ∧
    (WriteToken 0 NewTokenManager ⟨"t1", "alice", 0, 3, 6⟩).map (fun r => errorMessage r.1)
      = (ReadToken 0 NewTokenManager ⟨"t1"⟩).map (fun r => errorMessage r.1) := by
  refine ⟨?_, ?_, ?_, ?_⟩ <;> decide

/-- C14, amended. The message of every error contains the id of the request and says what
is wrong with the id: a failing `CreateToken` returns "token with id <id> already exists",
and a failing `WriteToken`, `ReadToken` or `DropToken` returns
"token with id <id> does not exist". The two messages differ, so a failed create is told
from the others; the messages of write, read and drop are the same. -/
theorem error_messages_identify_id (tm : TokenManagerServer) (id : String) :
    (∀ e, errorMessage (CreateToken tm ⟨id⟩).1 = some e →
      e = "token with id " ++ id ++ " already exists") ∧
    (∀ fuel name low mid high r tm' e,
      WriteToken fuel tm ⟨id, name, low, mid, high⟩ = some (r, tm') →
        errorMessage r = some e → e = "token with id " ++ id ++ " does not exist") ∧
    (∀ fuel r tm' e, ReadToken fuel tm ⟨id⟩ = some (r, tm') →
      errorMessage r = some e → e = "token with id " ++ id ++ " does not exist") ∧
    (∀ e, errorMessage (DropToken tm ⟨id⟩).1 = some e →
      e = "token with id " ++ id ++ " does not exist") ∧
    "token with id " ++ id ++ " already exists" ≠ "token with id " ++ id ++ " does not exist" := by
  refine ⟨?_, ?_, ?_, ?_, errAlreadyExists_ne_errDoesNotExist id⟩
  · intro e he
    cases h : tm.tokens id with
    | none =>
        simp only [CreateToken, h, errorMessage] at he
        exact absurd he (by simp)
    | some t =>
        simp only [CreateToken, h, errorMessage, Option.some.injEq] at he
        exact he.symm
  · intro fuel name low mid high r tm' e hrun he
    cases h : tm.tokens id with
    | none =>
        simp only [WriteToken, h, Option.some.injEq, Prod.mk.injEq] at hrun
        rw [← hrun.1] at he
        simp only [errorMessage, Option.some.injEq] at he
        exact he.symm
    | some t =>
        simp only [WriteToken, h] at hrun
        split at hrun
        · exact absurd hrun (by simp)
        · simp only [Option.some.injEq, Prod.mk.injEq] at hrun
          rw [← hrun.1] at he
          exact absurd he (by simp [errorMessage])
  · intro fuel r tm' e hrun he
    cases h : tm.tokens id with
    | none =>
        simp only [ReadToken, h, Option.some.injEq, Prod.mk.injEq] at hrun
        rw [← hrun.1] at he
        simp only [errorMessage, Option.some.injEq] at he
        exact he.symm
    | some t =>
        simp only [ReadToken, h] at hrun
        split at hrun
        · exact absurd hrun (by simp)
        · simp only [Option.some.injEq, Prod.mk.injEq] at hrun
          rw [← hrun.1] at he
          exact absurd he (by simp [errorMessage])
  · intro e he
    cases h : tm.tokens id with
    | none =>
        simp only [DropToken, h, errorMessage, Option.some.injEq] at he
        exact he.symm
    | some t =>
        simp only [DropToken, h, errorMessage] at he
        exact absurd he (by simp)

/-- The loop with the record of its counter values returns what the loop returns, and with
`hi` a `uint64` and at least `hi - i` iterations allowed the record is extended by the
indices `i, i + 1, ..., hi - 1`, each once and in increasing order. -/
theorem scanLoopTrace_spec (name : String) (hi : Nat) (hhi : hi < 2 ^ 64) :
    ∀ fuel i min mh seen, hi - i ≤ fuel →
      ∃ r, scanLoop name hi fuel i min mh = some r ∧
        scanLoopTrace name hi fuel i min mh seen = some (r, seen ++ List.range' i (hi - i)) := by
  intro fuel
  induction fuel with
  | zero =>
      intro i min mh seen hf
      have hni : ¬ i < hi := by omega
      have h0 : hi - i = 0 := by omega
      exact ⟨(min, mh), by simp [scanLoop, hni], by simp [scanLoopTrace, hni, h0]⟩
  | succ fuel ih =>
      intro i min mh seen hf
      by_cases hlt : i < hi
      · have hstep : (i + 1) % 2 ^ 64 = i + 1 := Nat.mod_eq_of_lt (by omega)
        have hlen : hi - i = (hi - (i + 1)) + 1 := by omega
        have hrange : seen ++ List.range' i (hi - i)
            = (seen ++ [i]) ++ List.range' (i + 1) (hi - (i + 1)) := by
          rw [hlen, List.range'_succ, List.append_assoc]
          rfl
        by_cases hh : Hash name i < mh
        · obtain ⟨r, h1, h2⟩ := ih (i + 1) i (Hash name i) (seen ++ [i]) (by omega)
          refine ⟨r, ?_, ?_⟩
          · simp only [scanLoop, hlt, hh, if_true, hstep, h1]
          · simp only [scanLoopTrace, hlt, hh, if_true, hstep, h2, hrange]
        · obtain ⟨r, h1, h2⟩ := ih (i + 1) min mh (seen ++ [i]) (by omega)
          refine ⟨r, ?_, ?_⟩
          · simp only [scanLoop, hlt, hh, if_true, if_false, hstep, h1]
          · simp only [scanLoopTrace, hlt, hh, if_true, if_false, hstep, h2, hrange]
      · have h0 : hi - i = 0 := by omega
        exact ⟨(min, mh), by simp [scanLoop, hlt], by simp [scanLoopTrace, hlt, h0]⟩

/-- Dropping the record from the result of the recording loop gives the loop itself, for
every fuel and every start. -/
theorem scanLoopTrace_erase (name : String) (hi : Nat) : ∀ fuel i min mh seen,
    (scanLoopTrace name hi fuel i min mh seen).map Prod.fst = scanLoop name hi fuel i min mh := by
  intro fuel
  induction fuel with
  | zero =>
      intro i min mh seen
      by_cases hlt : i < hi <;> simp [scanLoopTrace, scanLoop, hlt]
  | succ fuel ih =>
      intro i min mh seen
      by_cases hlt : i < hi
      · by_cases hh : Hash name i < mh
        · simp only [scanLoopTrace, scanLoop, hlt, hh, if_true, ih]
        · simp only [scanLoopTrace, scanLoop, hlt, hh, if_true, if_false, ih]
      · simp [scanLoopTrace, scanLoop, hlt]

/-- C19. The scans terminate without counter wrap-around for all `uint64` bounds: for a
token with any low, mid and high below `2 ^ 64` (the largest value and inverted ranges
included), the loop of `WriteToken` returns and its body runs at `low, low + 1, ..., mid - 1`,
each index once in increasing order, which is `mid - low` evaluations of `Hash` (none when
`mid ≤ low`); the loop of `ReadToken` does the same over `[mid, high)`; and at every index
where the body runs the increment does not wrap. -/
theorem scans_terminate_without_wrap (fw fr : Nat) (t : Token)
    (hmid : t.Domain.Mid < 2 ^ 64) (hhigh : t.Domain.High < 2 ^ 64)
    (hfw : t.Domain.Mid - t.Domain.Low ≤ fw) (hfr : t.Domain.High - t.Domain.Mid ≤ fr) :
    (∃ r, writeScan fw t = some r ∧
      scanLoopTrace t.Name t.Domain.Mid fw t.Domain.Low t.Domain.Low MaxUint64 []
        = some (r, List.range' t.Domain.Low (t.Domain.Mid - t.Domain.Low))) ∧
    (∃ r, readScan fr t = some r ∧
      scanLoopTrace t.Name t.Domain.High fr t.Domain.Mid 0 MaxUint64 []
        = some (r, List.range' t.Domain.Mid (t.Domain.High - t.Domain.Mid))) ∧
    (List.range' t.Domain.Low (t.Domain.Mid - t.Domain.Low)).length
      = t.Domain.Mid - t.Domain.Low ∧
    (List.range' t.Domain.Mid (t.Domain.High - t.Domain.Mid)).length
      = t.Domain.High - t.Domain.Mid ∧
    (∀ i ∈ List.range' t.Domain.Low (t.Domain.Mid - t.Domain.Low),
      i < t.Domain.Mid ∧ (i + 1) % 2 ^ 64 = i + 1) ∧
    (∀ i ∈ List.range' t.Domain.Mid (t.Domain.High - t.Domain.Mid),
      i < t.Domain.High ∧ (i + 1) % 2 ^ 64 = i + 1) := by
  obtain ⟨rw, hw1, hw2⟩ :=
    scanLoopTrace_spec t.Name t.Domain.Mid hmid fw t.Domain.Low t.Domain.Low MaxUint64 [] hfw
  obtain ⟨rr, hr1, hr2⟩ :=
    scanLoopTrace_spec t.Name t.Domain.High hhigh fr t.Domain.Mid 0 MaxUint64 [] hfr
  refine ⟨⟨rw, hw1, by simpa using hw2⟩, ⟨rr, hr1, by simpa using hr2⟩,
    List.length_range' _ _ _, List.length_range' _ _ _, ?_, ?_⟩
  · intro i hi
    rw [List.mem_range'_1] at hi
    have hlt : i < t.Domain.Mid := by omega
    exact ⟨hlt, Nat.mod_eq_of_lt (by omega)⟩
  · intro i hi
    rw [List.mem_range'_1] at hi
    have hlt : i < t.Domain.High := by omega
    exact ⟨hlt, Nat.mod_eq_of_lt (by omega)⟩

theorem scans_terminate_without_wrap_witness :
    ((18446744073709551615 : Nat) < 2 ^ 64 ∧ (18446744073709551615 : Nat) < 2 ^ 64 ∧
      18446744073709551615 - 18446744073709551613 ≤ 2 ∧
      18446744073709551615 - 18446744073709551615 ≤ 0) ∧
    (∃ r, writeScan 2 ⟨"t1", "alice",
        ⟨18446744073709551613, 18446744073709551615, 18446744073709551615⟩, ⟨0, 0⟩⟩ = some r ∧
      scanLoopTrace "alice" 18446744073709551615 2 18446744073709551613 18446744073709551613
        MaxUint64 [] = some (r, List.range' 18446744073709551613 2)) :=
  ⟨⟨by decide, by decide, by decide, by decide⟩,
    (scans_terminate_without_wrap 2 0 ⟨"t1", "alice",
      ⟨18446744073709551613, 18446744073709551615, 18446744073709551615⟩, ⟨0, 0⟩⟩
      (by decide) (by decide) (by decide) (by decide)).1⟩

/-- C20, as the claim states it, fails: for the token named "alice" with domain
`low = 0`, `mid = 5`, `high = 5` the scan of `ReadToken` produces the pair
`(0, 2 ^ 64 - 1)`, whose index is 0 and not `mid = 5`. -/
theorem readScan_empty_index_not_mid :
    readScan 0 ⟨"t1", "alice", ⟨0, 5, 5⟩, ⟨3, 0⟩⟩ = some (0, 2 ^ 64 - 1) ∧
    readScan 0 ⟨"t1", "alice", ⟨0, 5, 5⟩, ⟨3, 0⟩⟩ ≠ some (5, 2 ^ 64 - 1) := by
  refine ⟨?_, ?_⟩ <;> decide

/-- C20, amended. Decision-scan empty-range default: for every token whose domain has
`mid ≥ high`, the scan inside `ReadToken` produces the pair with candidate index 0 and
candidate priority `2 ^ 64 - 1`, for any fuel; the observation scan on an empty range
`low ≥ mid` produces the index `low` with the same priority. -/
theorem readScan_empty_default (fuel : Nat) (t : Token) (hempty : t.Domain.High ≤ t.Domain.Mid) :
    readScan fuel t = some (0, 2 ^ 64 - 1) ∧
    (t.Domain.Mid ≤ t.Domain.Low → writeScan fuel t = some (t.Domain.Low, 2 ^ 64 - 1)) :=
  ⟨scanLoop_empty _ _ _ _ _ _ hempty, fun h => scanLoop_empty _ _ _ _ _ _ h⟩

theorem readScan_empty_default_witness :
    (4 : Nat) ≤ 6 ∧ readScan 4 ⟨"t1", "alice", ⟨0, 6, 4⟩, ⟨3, 0⟩⟩ = some (0, 2 ^ 64 - 1) :=
  ⟨by decide, (readScan_empty_default 4 ⟨"t1", "alice", ⟨0, 6, 4⟩, ⟨3, 0⟩⟩ (by decide)).1⟩

/-! ### One scan over the whole range -/

/-- The earliest minimum of a range is unique. -/
theorem IsEarliestMin_unique (name : String) (lo hi a b : Nat)
    (ha : IsEarliestMin name lo hi a) (hb : IsEarliestMin name lo hi b) : a = b := by
  obtain ⟨a1, a2, a3, a4⟩ := ha
  obtain ⟨b1, b2, b3, b4⟩ := hb
  rcases Nat.lt_trichotomy a b with h | h | h
  · have h1 := b4 a a1 h
    have h2 := a3 b b1 b2
    omega
  · exact h
  · have h1 := a4 b b1 h
    have h2 := b3 a a1 a2
    omega

/-- Folding the strict-minimum step over `s, s + 1, ..., s + n - 1` from the earliest
minimum of `[lo, s)` gives the earliest minimum of `[lo, s + n)`. -/
theorem foldl_strict_min (name : String) (lo : Nat) : ∀ n s b, IsEarliestMin name lo s b →
    IsEarliestMin name lo (s + n)
      ((List.range' s n).foldl
        (fun best j => if Hash name j < Hash name best then j else best) b) := by
  intro n
  induction n with
  | zero =>
      intro s b hb
      simpa using hb
  | succ n ih =>
      intro s b hb
      obtain ⟨b1, b2, b3, b4⟩ := hb
      rw [List.range'_succ, List.foldl_cons]
      have hnext : IsEarliestMin name lo (s + 1)
          (if Hash name s < Hash name b then s else b) := by
        by_cases hlt : Hash name s < Hash name b
        · rw [if_pos hlt]
          refine ⟨by omega, by omega, ?_, ?_⟩
          · intro j hj1 hj2
            rcases Nat.eq_or_lt_of_le (Nat.le_of_lt_succ hj2) with rfl | hj
            · exact le_refl _
            · have := b3 j hj1 hj
              omega
          · intro j hj1 hj2
            have := b3 j hj1 hj2
            omega
        · rw [if_neg hlt]
          refine ⟨b1, by omega, ?_, b4⟩
          intro j hj1 hj2
          rcases Nat.eq_or_lt_of_le (Nat.le_of_lt_succ hj2) with rfl | hj
          · omega
          · exact b3 j hj1 hj
      have := ih (s + 1) _ hnext
      rwa [show s + 1 + n = s + (n + 1) by omega] at this

/-- The single scan over a non-empty range returns its earliest minimum. -/
theorem globalScan_spec (name : String) (lo hi : Nat) (hlt : lo < hi) :
    IsEarliestMin name lo hi (globalScan name lo hi) := by
  unfold globalScan
  have hlen : hi - lo = (hi - lo - 1) + 1 := by omega
  rw [hlen, List.range'_succ, List.foldl_cons, if_neg (Nat.lt_irrefl _)]
  have hbase : IsEarliestMin name lo (lo + 1) lo := by
    refine ⟨le_refl _, by omega, ?_, ?_⟩
    · intro j hj1 hj2
      have : j = lo := by omega
      rw [this]
    · intro j hj1 hj2
      omega
  have := foldl_strict_min name lo (hi - lo - 1) (lo + 1) lo hbase
  rwa [show lo + 1 + (hi - lo - 1) = hi by omega] at this

/-- C16. Two-phase selection equals one global scan: for every name and `uint64` bounds
with `low ≤ mid ≤ high` and `low < high`, on a table containing the id the write returns a
partial, the read that follows returns a final, and that final is the result of a single
left-to-right strict-minimum scan over `[low, high)`: the earliest index of `[low, high)`
with minimal hash, wherever `mid` splits the range. -/
theorem two_phase_equals_global_scan (fw fr : Nat) (tm : TokenManagerServer)
    (req : WriteTokenRequest) (t0 : Token) (hpresent : tm.tokens req.Id = some t0)
    (hlm : req.Low ≤ req.Mid) (hmh : req.Mid ≤ req.High) (hlh : req.Low < req.High)
    (hhigh : req.High < 2 ^ 64) (hfw : req.Mid - req.Low ≤ fw)
    (hfr : req.High - req.Mid ≤ fr) :
    ∃ p tm1 f tm2, WriteToken fw tm req = some (.ok ⟨p⟩, tm1) ∧
      ReadToken fr tm1 ⟨req.Id⟩ = some (.ok ⟨f⟩, tm2) ∧
      f = globalScan req.Name req.Low req.High ∧
      IsEarliestMin req.Name req.Low req.High f := by
  obtain ⟨p, vp, hws, hno, hearly⟩ :=
    scanLoop_write req.Name req.Low req.Mid fw (by omega) hfw
  have hemp : req.Low = req.Mid → p = req.Low := by
    intro he
    have h2 := scanLoop_empty req.Name req.Mid fw req.Low req.Low MaxUint64 (by omega)
    rw [h2] at hws
    simp only [Option.some.injEq, Prod.mk.injEq] at hws
    exact hws.1.symm
  have hwrite := WriteToken_of_scan fw tm req t0 p vp hpresent hws
  obtain ⟨m, v, hrs, hiff, hmin⟩ := scanLoop_read req.Name req.Mid req.High fr
    (Hash req.Name p) hhigh hfr (Hash_le_max _ _)
  have hread := ReadToken_of_scan fr
    ⟨mapStore tm.tokens req.Id ⟨t0.ID, req.Name, ⟨req.Low, req.Mid, req.High⟩, ⟨p, 0⟩⟩⟩
    ⟨req.Id⟩ ⟨t0.ID, req.Name, ⟨req.Low, req.Mid, req.High⟩, ⟨p, 0⟩⟩ m v
    (mapStore_same _ _ _) hrs
  have hglobal : IsEarliestMin req.Name req.Low req.High
      (if v < Hash req.Name p then m else p) := by
    by_cases hv : v < Hash req.Name p
    · rw [if_pos hv]
      obtain ⟨⟨m1, m2, m3, m4⟩, hbeat⟩ := hmin hv
      refine ⟨by omega, m2, ?_, ?_⟩
      · intro j hj1 hj2
        by_cases hj : j < req.Mid
        · have := hno j hj1 hj
          omega
        · exact m3 j (by omega) hj2
      · intro j hj1 hj2
        by_cases hj : j < req.Mid
        · have := hno j hj1 hj
          omega
        · exact m4 j (by omega) hj2
    · rw [if_neg hv]
      have hnone : ∀ x, req.Mid ≤ x → x < req.High → Hash req.Name p ≤ Hash req.Name x := by
        intro x hx1 hx2
        by_contra hc
        exact hv (hiff.2 ⟨x, hx1, hx2, by omega⟩)
      rcases Nat.eq_or_lt_of_le hlm with heq | hlt
      · have hp := hemp heq
        refine ⟨by omega, by omega, ?_, ?_⟩
        · intro j hj1 hj2
          exact hnone j (by omega) hj2
        · intro j hj1 hj2
          omega
      · obtain ⟨p1, p2, p3, p4⟩ := hearly hlt
        refine ⟨p1, by omega, ?_, p4⟩
        intro j hj1 hj2
        by_cases hj : j < req.Mid
        · exact p3 j hj1 hj
        · exact hnone j (by omega) hj2
  exact ⟨p, _, _, _, hwrite, hread,
    IsEarliestMin_unique _ _ _ _ _ hglobal (globalScan_spec _ _ _ hlh), hglobal⟩

theorem two_phase_equals_global_scan_witness :
    (mapStore NewTokenManager.tokens "t1" ⟨"t1", "", ⟨0, 0, 0⟩, ⟨0, 0⟩⟩ "t1"
        = some ⟨"t1", "", ⟨0, 0, 0⟩, ⟨0, 0⟩⟩ ∧
      (0 : Nat) ≤ 3 ∧ (3 : Nat) ≤ 6 ∧ (0 : Nat) < 6 ∧ (6 : Nat) < 2 ^ 64 ∧
      3 - 0 ≤ 3 ∧ 6 - 3 ≤ 3) ∧
    ∃ p tm1 f tm2,
      WriteToken 3 ⟨mapStore NewTokenManager.tokens "t1" ⟨"t1", "", ⟨0, 0, 0⟩, ⟨0, 0⟩⟩⟩
        ⟨"t1", "alice", 0, 3, 6⟩ = some (.ok ⟨p⟩, tm1) ∧
      ReadToken 3 tm1 ⟨"t1"⟩ = some (.ok ⟨f⟩, tm2) ∧
      f = globalScan "alice" 0 6 ∧ IsEarliestMin "alice" 0 6 f :=
  ⟨⟨by simp [mapStore], by decide, by decide, by decide, by decide, by decide, by decide⟩,
    two_phase_equals_global_scan 3 3
      ⟨mapStore NewTokenManager.tokens "t1" ⟨"t1", "", ⟨0, 0, 0⟩, ⟨0, 0⟩⟩⟩
      ⟨"t1", "alice", 0, 3, 6⟩ ⟨"t1", "", ⟨0, 0, 0⟩, ⟨0, 0⟩⟩ (by simp [mapStore])
      (by decide) (by decide) (by decide) (by decide) (by decide) (by decide)⟩

/-! ### The bytes fed to the digest -/

theorem nat_mask_or (y n c : Nat) : (y &&& (2 ^ n - 1)) ||| (2 ^ n * c) = 2 ^ n * c + y % 2 ^ n := by
  rw [Nat.and_pow_two_sub_one_eq_mod, Nat.lor_comm,
    ← Nat.mul_add_lt_is_or (Nat.mod_lt _ (Nat.two_pow_pos n))]

theorem toNat_shr6 (v : UInt32) : (v >>> 6).toNat = v.toNat / 64 := by
  show (v.toBitVec >>> (UInt32.mod 6 32).toBitVec).toNat = _
  have h : (UInt32.mod 6 32).toBitVec = 6#32 := by decide
  rw [h]
  simp [Nat.shiftRight_eq_div_pow]
  rfl

theorem toNat_shr12 (v : UInt32) : (v >>> 12).toNat = v.toNat / 4096 := by
  show (v.toBitVec >>> (UInt32.mod 12 32).toBitVec).toNat = _
  have h : (UInt32.mod 12 32).toBitVec = 12#32 := by decide
  rw [h]
  simp [Nat.shiftRight_eq_div_pow]
  rfl

theorem toNat_shr18 (v : UInt32) : (v >>> 18).toNat = v.toNat / 262144 := by
  show (v.toBitVec >>> (UInt32.mod 18 32).toBitVec).toNat = _
  have h : (UInt32.mod 18 32).toBitVec = 18#32 := by decide
  rw [h]
  simp [Nat.shiftRight_eq_div_pow]
  rfl

theorem tail_byte (x : UInt32) : (x.toUInt8 &&& 0x3f ||| 0x80).toNat = 128 + x.toNat % 64 := by
  show ((BitVec.ofNat 8 x.toNat &&& 0x3f#8) ||| 0x80#8).toNat = _
  rw [BitVec.toNat_or, BitVec.toNat_and, BitVec.toNat_ofNat]
  have := nat_mask_or (x.toNat % 2 ^ 8) 6 2
  simp at this ⊢
  omega

theorem lead_byte2 (x : UInt32) : (x.toUInt8 &&& 0x1f ||| 0xc0).toNat = 192 + x.toNat % 32 := by
  show ((BitVec.ofNat 8 x.toNat &&& 0x1f#8) ||| 0xc0#8).toNat = _
  rw [BitVec.toNat_or, BitVec.toNat_and, BitVec.toNat_ofNat]
  have := nat_mask_or (x.toNat % 2 ^ 8) 5 6
  simp at this ⊢
  omega

theorem lead_byte3 (x : UInt32) : (x.toUInt8 &&& 0x0f ||| 0xe0).toNat = 224 + x.toNat % 16 := by
  show ((BitVec.ofNat 8 x.toNat &&& 0x0f#8) ||| 0xe0#8).toNat = _
  rw [BitVec.toNat_or, BitVec.toNat_and, BitVec.toNat_ofNat]
  have := nat_mask_or (x.toNat % 2 ^ 8) 4 14
  simp at this ⊢
  omega

theorem lead_byte4 (x : UInt32) : (x.toUInt8 &&& 0x07 ||| 0xf0).toNat = 240 + x.toNat % 8 := by
  show ((BitVec.ofNat 8 x.toNat &&& 0x07#8) ||| 0xf0#8).toNat = _
  rw [BitVec.toNat_or, BitVec.toNat_and, BitVec.toNat_ofNat]
  have := nat_mask_or (x.toNat % 2 ^ 8) 3 30
  simp at this ⊢
  omega

theorem utf8EncodeChar_toNat (c : Char) :
    (String.utf8EncodeChar c).map UInt8.toNat = utf8Bytes c.val.toNat := by
  unfold String.utf8EncodeChar utf8Bytes
  simp only []
  by_cases h1 : c.val.toNat ≤ 127
  · have h1' : c.val ≤ 127 := h1
    rw [if_pos h1', if_pos h1]
    show [(BitVec.ofNat 8 c.val.toNat).toNat] = _
    rw [BitVec.toNat_ofNat]
    congr 1
    exact Nat.mod_eq_of_lt (by omega)
  · have h1' : ¬ c.val ≤ 127 := h1
    rw [if_neg h1', if_neg h1]
    by_cases h2 : c.val.toNat ≤ 2047
    · have h2' : c.val ≤ 2047 := h2
      rw [if_pos h2', if_pos h2]
      simp only [List.map_cons, List.map_nil, tail_byte, lead_byte2, toNat_shr6]
    · have h2' : ¬ c.val ≤ 2047 := h2
      rw [if_neg h2', if_neg h2]
      by_cases h3 : c.val.toNat ≤ 65535
      · have h3' : c.val ≤ 65535 := h3
        rw [if_pos h3', if_pos h3]
        simp only [List.map_cons, List.map_nil, tail_byte, lead_byte3, toNat_shr6, toNat_shr12]
      · have h3' : ¬ c.val ≤ 65535 := h3
        rw [if_neg h3', if_neg h3]
        simp only [List.map_cons, List.map_nil, tail_byte, lead_byte4, toNat_shr6, toNat_shr12,
          toNat_shr18]

theorem utf8Bytes_prefix_free (v1 v2 : Nat) (r1 r2 : List Nat) (h1 : v1 < 0x110000)
    (h2 : v2 < 0x110000) (h : utf8Bytes v1 ++ r1 = utf8Bytes v2 ++ r2) : v1 = v2 ∧ r1 = r2 := by
  unfold utf8Bytes at h
  split_ifs at h <;>
    simp only [List.cons_append, List.nil_append, List.cons.injEq] at h <;>
    first
      | (obtain ⟨e1, e2⟩ := h; exact ⟨by omega, e2⟩)
      | (obtain ⟨e1, e2, e3⟩ := h; exact ⟨by omega, e3⟩)
      | (obtain ⟨e1, e2, e3, e4⟩ := h; exact ⟨by omega, e4⟩)
      | (obtain ⟨e1, e2, e3, e4, e5⟩ := h; exact ⟨by omega, e5⟩)
      | (exfalso; omega)


theorem char_val_lt (c : Char) : c.val.toNat < 0x110000 := by
  have h := c.valid
  simp only [UInt32.isValidChar, Nat.isValidChar] at h
  omega

theorem utf8Bytes_ne_nil (v : Nat) : utf8Bytes v ≠ [] := by
  unfold utf8Bytes
  split_ifs <;> simp

theorem stringBytes_eq_flatMap (s : String) :
    stringBytes s = s.data.flatMap fun c => utf8Bytes c.val.toNat := by
  unfold stringBytes String.toUTF8
  simp only [List.map_flatMap, utf8EncodeChar_toNat]

theorem charBytes_injective : ∀ l1 l2 : List Char,
    (l1.flatMap fun c => utf8Bytes c.val.toNat) = (l2.flatMap fun c => utf8Bytes c.val.toNat) →
    l1 = l2 := by
  intro l1
  induction l1 with
  | nil =>
      intro l2 h
      cases l2 with
      | nil => rfl
      | cons c l2 =>
          simp only [List.flatMap_nil, List.flatMap_cons] at h
          have := utf8Bytes_ne_nil c.val.toNat
          exact absurd (List.append_eq_nil.mp h.symm).1 this
  | cons c1 l1 ih =>
      intro l2 h
      cases l2 with
      | nil =>
          simp only [List.flatMap_nil, List.flatMap_cons] at h
          have := utf8Bytes_ne_nil c1.val.toNat
          exact absurd (List.append_eq_nil.mp h).1 this
      | cons c2 l2 =>
          simp only [List.flatMap_cons] at h
          obtain ⟨hv, hr⟩ := utf8Bytes_prefix_free _ _ _ _ (char_val_lt c1) (char_val_lt c2) h
          have hc : c1 = c2 := Char.ext (UInt32.ext hv)
          rw [hc, ih l2 hr]

theorem stringBytes_injective (s1 s2 : String) (h : stringBytes s1 = stringBytes s2) :
    s1 = s2 := by
  rw [stringBytes_eq_flatMap, stringBytes_eq_flatMap] at h
  exact String.ext (charBytes_injective _ _ h)

theorem specDecimal_no_space (n : Nat) : 32 ∉ specDecimal n := by
  unfold specDecimal
  split_ifs
  · simp
  · simp only [List.mem_map, not_exists, not_and]
    intro d _ hd
    omega

theorem specDecimal_injective (a b : Nat) (h : specDecimal a = specDecimal b) : a = b := by
  have hinj : Function.Injective (fun d : Nat => 48 + d) := fun x y hxy => by
    simp only at hxy
    omega
  unfold specDecimal at h
  split_ifs at h with ha hb hb
  · rw [ha, hb]
  · have h2 : (Nat.digits 10 b).reverse = [0] := by
      apply List.map_injective_iff.mpr hinj
      simpa using h.symm
    have h3 : Nat.digits 10 b = [0] := by
      have := congrArg List.reverse h2
      simpa using this
    have h4 := Nat.ofDigits_digits 10 b
    rw [h3] at h4
    simp at h4
    omega
  · have h2 : (Nat.digits 10 a).reverse = [0] := by
      apply List.map_injective_iff.mpr hinj
      simpa using h
    have h3 : Nat.digits 10 a = [0] := by
      have := congrArg List.reverse h2
      simpa using this
    have h4 := Nat.ofDigits_digits 10 a
    rw [h3] at h4
    simp at h4
    omega
  · have h2 := List.map_injective_iff.mpr hinj h
    have h3 := List.reverse_injective h2
    rw [← Nat.ofDigits_digits 10 a, ← Nat.ofDigits_digits 10 b, h3]

/-- Two byte strings with a space before a space-free tail are equal only when the parts
before the space and the tails are equal. -/
theorem split_at_last_space (a1 a2 d1 d2 : List Nat) (h1 : 32 ∉ d1) (h2 : 32 ∉ d2)
    (h : a1 ++ [32] ++ d1 = a2 ++ [32] ++ d2) : a1 = a2 ∧ d1 = d2 := by
  simp only [List.append_assoc, List.singleton_append] at h
  rcases List.append_eq_append_iff.mp h with ⟨x, hx1, hx2⟩ | ⟨x, hx1, hx2⟩
  · cases x with
    | nil =>
        simp only [List.append_nil, List.nil_append, List.cons.injEq, true_and] at hx1 hx2
        exact ⟨hx1.symm, hx2⟩
    | cons y ys =>
        simp only [List.cons_append, List.cons.injEq] at hx2
        exact absurd (hx2.2 ▸ (by simp : (32 : Nat) ∈ ys ++ 32 :: d2)) h1
  · cases x with
    | nil =>
        simp only [List.append_nil, List.nil_append, List.cons.injEq, true_and] at hx1 hx2
        exact ⟨hx1, hx2.symm⟩
    | cons y ys =>
        simp only [List.cons_append, List.cons.injEq] at hx2
        exact absurd (hx2.2 ▸ (by simp : (32 : Nat) ∈ ys ++ 32 :: d1)) h2

theorem sprintfNameNonce_injective (n1 n2 : String) (k1 k2 : Nat) (hk1 : k1 < 2 ^ 64)
    (hk2 : k2 < 2 ^ 64) (h : sprintfNameNonce n1 k1 = sprintfNameNonce n2 k2) :
    n1 = n2 ∧ k1 = k2 := by
  unfold sprintfNameNonce at h
  rw [fmtUint64_eq k1 hk1, fmtUint64_eq k2 hk2] at h
  obtain ⟨ha, hd⟩ := split_at_last_space _ _ _ _ (specDecimal_no_space k1)
    (specDecimal_no_space k2) h
  exact ⟨stringBytes_injective n1 n2 ha, specDecimal_injective k1 k2 hd⟩

/-- C12. Hash input encoding is injective: `Hash` is a function of its two arguments, so
equal arguments give equal values; the bytes it feeds to the digest are the bytes of the
name, one space and the decimal nonce; and for all names and `uint64` nonces, if the names
differ or the nonces differ then the byte strings fed to the digest differ, also when the
names contain spaces or digits. -/
theorem Hash_input_injective (n1 n2 : String) (k1 k2 : Nat) (hk1 : k1 < 2 ^ 64)
    (hk2 : k2 < 2 ^ 64) :
    (n1 = n2 → k1 = k2 → Hash n1 k1 = Hash n2 k2) ∧
    Hash n1 k1 = bigEndianUint64 (sha256Sum (sprintfNameNonce n1 k1)) ∧
    sprintfNameNonce n1 k1 = stringBytes n1 ++ [32] ++ specDecimal k1 ∧
    (n1 ≠ n2 ∨ k1 ≠ k2 → sprintfNameNonce n1 k1 ≠ sprintfNameNonce n2 k2) := by
  refine ⟨fun hn hk => by rw [hn, hk], rfl, ?_, ?_⟩
  · unfold sprintfNameNonce
    rw [fmtUint64_eq k1 hk1]
  · intro hne heq
    obtain ⟨hn, hk⟩ := sprintfNameNonce_injective n1 n2 k1 k2 hk1 hk2 heq
    rcases hne with h | h
    · exact h hn
    · exact h hk

theorem Hash_input_injective_witness :
    ((2 : Nat) < 2 ^ 64 ∧ (12 : Nat) < 2 ^ 64 ∧ ("a 1" ≠ "a" ∨ (2 : Nat) ≠ 12)) ∧
    sprintfNameNonce "a 1" 2 ≠ sprintfNameNonce "a" 12 :=
  ⟨⟨by decide, by decide, Or.inl (by decide)⟩,
    (Hash_input_injective "a 1" "a" 2 12 (by decide) (by decide)).2.2.2 (Or.inl (by decide))⟩

end TokenManager
